import Mathlib

/-!
Verification development for the bitcoin-ordinal-holder-indexer repository.

This file gives a shallow embedding of the computational core of the
repository and proves properties about it:

* `src/services/fileManager.ts` — `saveHoldersSummaryToFile` (validation,
  cleaning, size estimation, split decision, chunked writes) and
  `getLatestHoldersSummaryFile` (latest-file selection, chunk detection,
  chunk-index sorting, merge, merged-file persistence), plus the manual
  fallback encoder of `safeStringify`.
* `src/services/dataProcessor.ts` — `summarizeHolders` (cross-source
  aggregation) and `filterHolders` (threshold filter), together with the
  legacy `filterHolders` from the monolithic `src/index.ts`.

Modelling conventions: a JavaScript `Record<string, string[]>` is an
association list `List (String × List String)` whose entry order models the
string-key insertion order of a JS object; file-system effects are modelled
by returning the list of `(filename, content)` writes, with file contents
kept structurally (JSON serialization and parsing are treated as the
identity on well-typed data); `new Date()` is modelled by a `clock : Nat →
String` giving the timestamp observed by the k-th `new Date()` call of the
operation; paths are modelled by the file name within the single `data/`
directory.
-/

namespace HolderIndexer

/-- A wallet → inscription-identifier-list mapping (`Record<string, string[]>`).
The list order models JS object insertion order. -/
abbrev HolderMap := List (String × List String)

/-- `String.prototype.trim`: strip leading and trailing whitespace. -/
def jsTrim (s : String) : String :=
  ⟨((s.data.dropWhile Char.isWhitespace).reverse.dropWhile Char.isWhitespace).reverse⟩

/-- Association-list lookup, modelling JS property access `m[k]` (string keys
are unique in a JS object, so the first match is the only match). -/
def lookupS (k : String) : HolderMap → Option (List String)
  | [] => none
  | e :: es => if e.1 = k then some e.2 else lookupS k es

/-- JS property assignment `m[k] = v`: an existing key keeps its position and
gets the new value; a fresh key is appended at the end (JS string-key
insertion order). -/
def setEntry (m : HolderMap) (k : String) (v : List String) : HolderMap :=
  if (lookupS k m).isSome then
    m.map (fun e => if e.1 = k then (k, v) else e)
  else m ++ [(k, v)]

/-! ## Cleaning and the split decision (`saveHoldersSummaryToFile`) -/

/-- The inscription-id filter of `saveHoldersSummaryToFile`:
`typeof id === 'string' && id.trim() !== '' && id.length < 1000`
(the `typeof` check is vacuous in the typed model). -/
def validInscription (id : String) : Bool :=
  jsTrim id != "" && decide (id.length < 1000)

/-- One step of the cleaning loop of `saveHoldersSummaryToFile`: skip an
entry whose wallet trims to the empty string, filter its inscriptions, and
skip the entry when no valid inscription remains. -/
def cleanEntry (e : String × List String) : Option (String × List String) :=
  if jsTrim e.1 = "" then none
  else
    let validInscriptions := e.2.filter validInscription
    if validInscriptions.isEmpty then none else some (e.1, validInscriptions)

/-- The cleaned copy `cleanedHoldersSummary` built by `saveHoldersSummaryToFile`. -/
def cleanHolders (m : HolderMap) : HolderMap := m.filterMap cleanEntry

/-- `totalInscriptions` accumulated while cleaning: the number of retained
inscription ids. -/
def totalInscriptions (m : HolderMap) : Nat := (m.map (fun e => e.2.length)).sum

/-- `maxSize`: the 50 MB size limit. -/
def maxSize : Nat := 50 * 1024 * 1024

/-- `estimatedSize`: the linear size estimate
`wallet_count * 100 + total_inscription_count * 50`. -/
def estimatedSize (m : HolderMap) : Nat := m.length * 100 + totalInscriptions m * 50

/-- The split decision `estimatedSize > maxSize || wallet_count > 100000`,
computed on the cleaned map. -/
def shouldSplit (m : HolderMap) : Bool :=
  decide (maxSize < estimatedSize m) || decide (100000 < m.length)

/-- Split a list into consecutive slices of `n` elements, modelling the loop
`for (let i = 0; i < wallets.length; i += chunkSize)` with
`wallets.slice(i, i + chunkSize)`.  The `n = 0` case is unreachable from
`saveHoldersSummaryToFile` (the source would loop forever there): the chunk
branch implies at least one cleaned wallet, hence `chunkSize ≥ 1`. -/
def chunksOf (n : Nat) (l : List α) : List (List α) :=
  match l with
  | [] => []
  | x :: xs =>
    if n = 0 then []
    else (x :: xs).take n :: chunksOf n ((x :: xs).drop n)
termination_by l.length
decreasing_by simp [List.length_drop]; omega

/-- `saveHoldersSummaryToFile`, returning the `(filename, content)` writes it
performs.  In the chunk branch the source calls `new Date()` once per chunk
iteration, modelled by `clock k` for the k-th chunk; the single-file branch
calls it once (`clock 0`). -/
def saveHoldersSummaryToFile (clock : Nat → String) (holdersSummary : HolderMap) :
    List (String × HolderMap) :=
  let cleaned := cleanHolders holdersSummary
  if shouldSplit cleaned then
    let wallets := cleaned.map Prod.fst
    let chunkSize := (wallets.length + 4) / 5
    (chunksOf chunkSize wallets).enum.map (fun ke =>
      ("holderSummary-" ++ clock ke.1 ++ "-chunk" ++ toString (ke.1 + 1) ++ ".json",
       ke.2.map (fun w => (w, (lookupS w cleaned).getD []))))
  else
    [("holderSummary-" ++ clock 0 ++ ".json", cleaned)]

/-! ## String scanning helpers (JS `includes`, `startsWith`, `endsWith`,
`split(sep)[i]`) -/

/-- JS `s.startsWith(p)`. -/
def startsWithS (p s : String) : Bool := p.data.isPrefixOf s.data

/-- JS `s.endsWith(p)`. -/
def endsWithS (p s : String) : Bool := p.data.isSuffixOf s.data

/-- Does `m` occur as a contiguous substring? -/
def hasSubstr (m : List Char) : List Char → Bool
  | [] => m.isEmpty
  | c :: cs => m.isPrefixOf (c :: cs) || hasSubstr m cs

/-- JS `s.includes(m)`. -/
def containsS (m s : String) : Bool := hasSubstr m.data s.data

/-- The characters before the first occurrence of `m` (the whole list when
`m` does not occur): JS `s.split(m)[0]` for a non-empty separator. -/
def splitHead (m : List Char) : List Char → List Char
  | [] => []
  | c :: cs => if m.isPrefixOf (c :: cs) then [] else c :: splitHead m cs

/-- The characters after the first occurrence of `m`, or `none` when `m`
does not occur: the remainder that JS `split` keeps processing after the
first separator hit. -/
def afterFirst (m : List Char) : List Char → Option (List Char)
  | [] => none
  | c :: cs =>
    if m.isPrefixOf (c :: cs) then some ((c :: cs).drop m.length)
    else afterFirst m cs

/-! ## `parseInt` and the chunk-index comparator -/

/-- Decimal value of a digit list. -/
def digitsValue (l : List Char) : Nat :=
  l.foldl (fun acc c => acc * 10 + (c.toNat - '0'.toNat)) 0

/-- JS `parseInt(s)` restricted to decimal inputs: skip leading whitespace,
accept an optional sign, read leading digits; `none` models `NaN` (no
digits).  The hexadecimal `0x` form of `parseInt` is not modelled — chunk
filenames never exercise it. -/
def parseIntJS (l : List Char) : Option Int :=
  let t := l.dropWhile Char.isWhitespace
  match t with
  | '-' :: rest =>
    let ds := rest.takeWhile Char.isDigit
    if ds.isEmpty then none else some (-(digitsValue ds : Int))
  | '+' :: rest =>
    let ds := rest.takeWhile Char.isDigit
    if ds.isEmpty then none else some (digitsValue ds : Int)
  | _ =>
    let ds := t.takeWhile Char.isDigit
    if ds.isEmpty then none else some (digitsValue ds : Int)

/-- The sort key `parseInt(f.split('chunk')[1]?.split('.')[0] || '0')` of the
chunk-file comparator in `getLatestHoldersSummaryFile`; `none` models `NaN`.
`split('chunk')[1]` is the text between the first and second occurrence of
`chunk` (`none` from `afterFirst` models the `undefined` element, which the
optional chaining and `|| '0'` turn into `'0'`; an empty string is falsy and
also becomes `'0'`). -/
def chunkKey (f : String) : Option Int :=
  match afterFirst "chunk".data f.data with
  | none => some 0
  | some rest =>
    let seg := splitHead "chunk".data rest
    let txt := splitHead ['.'] seg
    if txt.isEmpty then some 0 else parseIntJS txt

/-- The comparator `(a, b) => chunkA - chunkB`;
per the ECMAScript `SortCompare` rule a `NaN` comparator result is treated
as `+0`, so any comparison involving a `NaN` key yields 0 ("equal"). -/
def chunkCmp (a b : String) : Int :=
  match chunkKey a, chunkKey b with
  | some x, some y => x - y
  | _, _ => 0

/-! ## Sorting (`Array.prototype.sort`)

`sortK keep` is a stable insertion sort: each element is inserted after all
already-placed elements `y` with `keep y x = true`.  For a consistent
comparator this is the unique stable sort that ECMAScript 2019+ mandates. -/

/-- Insert `x` after every `y` with `keep y x`. -/
def insertK (keep : α → α → Bool) (x : α) : List α → List α
  | [] => [x]
  | y :: ys => if keep y x then y :: insertK keep x ys else x :: y :: ys

/-- Stable insertion sort. -/
def sortK (keep : α → α → Bool) (l : List α) : List α :=
  l.foldl (fun acc x => insertK keep x acc) []

/-- Lexicographic comparison of char lists by code point, the order used by
the argument-less JS `sort()` on the (ASCII) snapshot filenames. -/
def charListLt : List Char → List Char → Bool
  | _, [] => false
  | [], _ :: _ => true
  | a :: as, b :: bs => if a < b then true else if a = b then charListLt as bs else false

/-- Strict string order (JS `a < b` on strings). -/
def strLt (a b : String) : Bool := charListLt a.data b.data

/-- `keep` relation of the default ascending string sort: `a` stays before
`b` unless `b < a`. -/
def strKeep (a b : String) : Bool := !(strLt b a)

/-- `keep` relation of the chunk-index sort: `a` stays before `b` when the
comparator result is `≤ 0` (a stable sort moves `b` before `a` only on a
strictly positive comparison). -/
def chunkKeep (a b : String) : Bool := decide (chunkCmp a b ≤ 0)

/-! ## `getLatestHoldersSummaryFile` -/

/-- The filename filter
`file.startsWith('holderSummary-') && file.endsWith('.json')`. -/
def holderSummaryFileFilter (f : String) : Bool :=
  startsWithS "holderSummary-" f && endsWithS ".json" f

/-- Merge one chunk's parsed content into `mergedData`:
`for ([wallet, inscriptions] of Object.entries(chunk)) mergedData[wallet] = inscriptions`
(the `Array.isArray` guard is vacuous in the typed model). -/
def mergeChunk (acc : HolderMap) (chunk : HolderMap) : HolderMap :=
  chunk.foldl (fun acc2 e => setEntry acc2 e.1 e.2) acc

/-- `getLatestHoldersSummaryFile`.  `files` is the directory listing,
`readFile` the parsed content of a file.  Returns `none` where the source
throws ("no holderSummary files", "invalid chunk filename format"), and
otherwise `some (returnedFilename, writesPerformed)`. -/
def getLatestHoldersSummaryFile (files : List String) (readFile : String → HolderMap) :
    Option (String × List (String × HolderMap)) :=
  let holdersSummaryFiles := (sortK strKeep (files.filter holderSummaryFileFilter)).reverse
  match holdersSummaryFiles.head? with
  | none => none
  | some latestFile =>
    if containsS "chunk" latestFile then
      let timestamp : String := ⟨splitHead "-chunk".data latestFile.data⟩
      if timestamp = "" then none
      else
        let chunkFiles :=
          sortK chunkKeep
            (files.filter (fun f => startsWithS timestamp f && containsS "chunk" f))
        let merged := chunkFiles.foldl (fun acc f => mergeChunk acc (readFile f)) []
        let mergedFilename := timestamp ++ ".json"
        some (mergedFilename, [(mergedFilename, merged)])
    else
      some (latestFile, [])

/-! ## `summarizeHolders` (src/services/dataProcessor.ts) -/

/-- A holder record returned by `fetchHoldersPerCollection`. -/
structure IHolder where
  wallet : String
  inscription_ids : List String
deriving DecidableEq

/-- A bitmap record; `inscription_ids = none` models a JSON value that fails
the `Array.isArray` guard. -/
structure IBitmap where
  wallet : String
  inscription_ids : Option (List String)
deriving DecidableEq

/-- `Set.prototype.add` as observed through `Array.from`: append when absent. -/
def addUnique (acc : List String) (id : String) : List String :=
  if id ∈ acc then acc else acc ++ [id]

/-- The collection phase body: initialize a fresh wallet to `[]`, then
`holdersSummary[holder.wallet].push(...holder.inscription_ids)` —
a plain concatenation, with no deduplication. -/
def processHolder (m : HolderMap) (h : IHolder) : HolderMap :=
  setEntry m h.wallet (((lookupS h.wallet m).getD []) ++ h.inscription_ids)

/-- The bitmap phase body: skip non-array ids; otherwise rebuild the
wallet's list as `Array.from(new Set(existing))` extended with the valid
(`typeof id === 'string' && id.trim() !== ''`) bitmap ids, deduplicated. -/
def processBitmap (m : HolderMap) (b : IBitmap) : HolderMap :=
  match b.inscription_ids with
  | none => m
  | some ids =>
    let existingIds := ((lookupS b.wallet m).getD []).foldl addUnique []
    let finalIds := ids.foldl (fun s id => if jsTrim id != "" then addUnique s id else s) existingIds
    setEntry m b.wallet finalIds

/-- `summarizeHolders`, parameterized by the per-collection holder fetches
and the bitmap dataset (the file/API plumbing around them is glue). -/
def summarizeHolders (holdersPerCollection : List (List IHolder))
    (bitmapList : List IBitmap) : HolderMap :=
  let afterCollections := holdersPerCollection.foldl (fun m hs => hs.foldl processHolder m) []
  bitmapList.foldl processBitmap afterCollections

/-! ## The two threshold filters -/

/-- `filterHolders` of src/services/dataProcessor.ts:
keep wallets with `inscriptions.length >= 10`. -/
def filterHolders (holdersSummary : HolderMap) : HolderMap :=
  holdersSummary.filter (fun e => decide (10 ≤ e.2.length))

/-- `filterHolders` of the legacy monolithic src/index.ts:
keep wallets with `inscriptions.length > 10`. -/
def filterHoldersLegacy (holdersSummary : HolderMap) : HolderMap :=
  holdersSummary.filter (fun e => decide (10 < e.2.length))

/-! ## The manual fallback encoder of `safeStringify`

JS values form a possibly-cyclic object graph; `JGraph` maps a node id to
its description, so cycles (the inputs the fallback exists for) are
representable.  `processObject` carries an explicit `fuel` so that the
recursion is well-founded even on cyclic graphs; the totality theorem shows
a fixed fuel of 12 suffices for every graph because the source caps the
depth at 10. -/

/-- A JS value shape: a leaf, an array of child node ids, or an object of
named child node ids. -/
inductive JValue where
  | jnull : JValue
  | jbool : Bool → JValue
  | jnum : Int → JValue
  | jstr : String → JValue
  | jarr : List Nat → JValue
  | jobj : List (String × Nat) → JValue

/-- A heap of JS values addressed by node id (cycles allowed). -/
def JGraph := Nat → JValue

/-- `JSON.stringify` on the non-object leaves reached by the fallback. -/
def leafEncode : JValue → String
  | .jnull => "null"
  | .jbool true => "true"
  | .jbool false => "false"
  | .jnum n => toString n
  | .jstr s => "\"" ++ s ++ "\""
  | .jarr _ => ""
  | .jobj _ => ""

/-- The chunk the fallback pushes past the depth cap. -/
def maxDepthChunk : String := "\"[Max Depth Reached]\""

mutual

/-- `processObject(obj, depth)` of the third `safeStringify` attempt,
returning the pushed chunks; `none` only when the fuel runs out. -/
def processObject (g : JGraph) : Nat → Nat → Nat → Option (List String)
  | 0, _, _ => none
  | fuel + 1, node, depth =>
    if 10 < depth then some [maxDepthChunk]
    else
      match g node with
      | .jarr elems =>
        match processElems g fuel (depth + 1) elems true with
        | some chunks => some ("[" :: chunks ++ ["]"])
        | none => none
      | .jobj fields =>
        match processFields g fuel (depth + 1) fields true with
        | some chunks => some ("\x7b" :: chunks ++ ["\x7d"])
        | none => none
      | v => some [leafEncode v]
termination_by fuel _ _ => (fuel, 0)

/-- The `obj.forEach((item, index) => ...)` loop over array elements,
inserting `','` before every element but the first. -/
def processElems (g : JGraph) (fuel depth : Nat) :
    List Nat → Bool → Option (List String)
  | [], _ => some []
  | e :: es, isFirst =>
    match processObject g fuel e depth, processElems g fuel depth es false with
    | some c, some rest => some ((if isFirst then [] else [","]) ++ c ++ rest)
    | _, _ => none
termination_by l _ => (fuel, l.length + 1)

/-- The `keys.forEach((key, index) => ...)` loop over object fields,
pushing `"key":` then the encoded value. -/
def processFields (g : JGraph) (fuel depth : Nat) :
    List (String × Nat) → Bool → Option (List String)
  | [], _ => some []
  | f :: fs, isFirst =>
    match processObject g fuel f.2 depth, processFields g fuel depth fs false with
    | some c, some rest =>
      some ((if isFirst then [] else [","]) ++ ("\"" ++ f.1 ++ "\":") :: c ++ rest)
    | _, _ => none
termination_by l _ => (fuel, l.length + 1)

end

/-- The third `safeStringify` attempt: run the encoder from the root and
join the chunks.  Fuel 12 covers the depth cap (depths 0..11). -/
def safeStringifyFallback (g : JGraph) (root : Nat) : Option String :=
  (processObject g 12 root 0).map String.join

/-! ## Auxiliary predicates and concrete sample data used in the theorems -/

/-- `m` has no occurrence starting strictly inside `a` of any word of the
form `a.drop i ++ m ++ b`: the marker `m` cannot match before the position
`a.length` in `a ++ m ++ b`.  (Since `m.length ≤ (a.drop i ++ m).length`, an
early match would already show inside `a.drop i ++ m`, so `b` is
irrelevant.)  Used to pin down `split(m)[0]` on marker-free prefixes. -/
def NoEarlyOccB (m a : List Char) : Bool :=
  (List.range a.length).all (fun i => !(m.isPrefixOf (a.drop i ++ m)))

/-- A map of one valid wallet whose single (valid) identifier list is large
enough to push the size estimate past the 50 MB limit:
`estimatedSize = 100 + 1050000 * 50 = 52500100 > 52428800`. -/
def sampleBig1 : HolderMap := [("w", List.replicate 1050000 "a")]

/-- Two valid wallets, the first with an identifier list large enough to
trigger the split. -/
def sampleBig2 : HolderMap := [("w1", List.replicate 1050000 "a"), ("w2", ["b"])]

/-- A clock whose first two `new Date()` observations differ: the first
chunk iteration sees `T1`, every later one sees `T2` (the realizable
situation of the wall clock advancing between two chunk writes). -/
def clock12 : Nat → String := fun k => if k = 0 then "T1" else "T2"

/-- An object graph with a self-referencing node: the cyclic input that
defeats the first two `safeStringify` attempts. -/
def cyclicGraph : JGraph := fun _ => JValue.jobj [("self", 0)]

/-! # Lemmas -/

/-! ## Association-list basics -/

theorem lookupS_eq_none_iff (k : String) :
    ∀ m : HolderMap, lookupS k m = none ↔ k ∉ m.map Prod.fst := by
  intro m
  induction m with
  | nil => simp [lookupS]
  | cons e es ih =>
    by_cases h : e.1 = k
    · simp [lookupS, h]
    · simp only [lookupS, h, if_false, List.map_cons, List.mem_cons, ih]
      constructor
      · rintro hn (hk | hk)
        · exact h hk.symm
        · exact hn hk
      · intro hn hk; exact hn (Or.inr hk)

theorem lookupS_append_right {k : String} {m : HolderMap} (l : HolderMap)
    (h : lookupS k m = none) : lookupS k (m ++ l) = lookupS k l := by
  induction m with
  | nil => simp
  | cons e es ih =>
    by_cases he : e.1 = k
    · simp [lookupS, he] at h
    · simp only [List.cons_append, lookupS, he, if_false] at h ⊢
      exact ih h

theorem lookupS_append_single_ne {k k' : String} (m : HolderMap) (v : List String)
    (hne : k' ≠ k) : lookupS k' (m ++ [(k, v)]) = lookupS k' m := by
  induction m with
  | nil =>
    have : ¬(k = k') := fun h => hne h.symm
    simp [lookupS, this]
  | cons e es ih =>
    by_cases he : e.1 = k'
    · simp [lookupS, he]
    · simp only [List.cons_append, lookupS, he, if_false]
      exact ih

theorem lookupS_map_update {k : String} (v : List String) :
    ∀ m : HolderMap, (lookupS k m).isSome →
      lookupS k (m.map (fun e => if e.1 = k then (k, v) else e)) = some v := by
  intro m
  induction m with
  | nil => simp [lookupS]
  | cons e es ih =>
    by_cases he : e.1 = k
    · intro _
      rw [List.map_cons, if_pos he]
      simp [lookupS]
    · simp only [lookupS, he, if_false, List.map_cons, if_neg he]
      exact ih

theorem lookupS_map_update_ne {k k' : String} (v : List String) (hne : k' ≠ k) :
    ∀ m : HolderMap,
      lookupS k' (m.map (fun e => if e.1 = k then (k, v) else e)) = lookupS k' m := by
  intro m
  induction m with
  | nil => rfl
  | cons e es ih =>
    by_cases he : e.1 = k
    · have h2 : ¬(k = k') := fun h => hne h.symm
      have h3 : ¬(e.1 = k') := by rw [he]; exact h2
      rw [List.map_cons, if_pos he]
      simp only [lookupS, h2, h3, if_false]
      exact ih
    · rw [List.map_cons, if_neg he]
      by_cases he' : e.1 = k'
      · simp [lookupS, he']
      · simp only [lookupS, he', if_false]
        exact ih

theorem setEntry_of_lookup_none {k : String} {m : HolderMap} (v : List String)
    (h : lookupS k m = none) : setEntry m k v = m ++ [(k, v)] := by
  unfold setEntry
  simp [h]

theorem lookupS_setEntry_self (m : HolderMap) (k : String) (v : List String) :
    lookupS k (setEntry m k v) = some v := by
  by_cases h : (lookupS k m).isSome
  · unfold setEntry
    simp only [h, if_true]
    exact lookupS_map_update v m h
  · have hnone : lookupS k m = none := Option.not_isSome_iff_eq_none.mp h
    rw [setEntry_of_lookup_none v hnone, lookupS_append_right _ hnone]
    simp [lookupS]

theorem lookupS_setEntry_ne {k k' : String} (m : HolderMap) (v : List String)
    (hne : k' ≠ k) : lookupS k' (setEntry m k v) = lookupS k' m := by
  by_cases h : (lookupS k m).isSome
  · unfold setEntry
    simp only [h, if_true]
    exact lookupS_map_update_ne v hne m
  · have hnone : lookupS k m = none := Option.not_isSome_iff_eq_none.mp h
    rw [setEntry_of_lookup_none v hnone]
    exact lookupS_append_single_ne m v hne

/-! ## Deduplicated folds (the `Set`-based bitmap merge) -/

theorem addUnique_nodup {acc : List String} (id : String) (h : acc.Nodup) :
    (addUnique acc id).Nodup := by
  unfold addUnique
  by_cases hm : id ∈ acc
  · simpa [hm] using h
  · rw [if_neg hm, List.nodup_append]
    refine ⟨h, List.nodup_singleton id, ?_⟩
    intro x hx hy
    simp only [List.mem_singleton] at hy
    exact hm (hy ▸ hx)

theorem foldl_addUnique_nodup (ids : List String) :
    ∀ acc : List String, acc.Nodup → (ids.foldl addUnique acc).Nodup := by
  induction ids with
  | nil => intro acc h; simpa
  | cons i is ih => intro acc h; exact ih _ (addUnique_nodup i h)

theorem foldl_addUnique_cond_nodup (ids : List String) :
    ∀ acc : List String, acc.Nodup →
      (ids.foldl (fun s id => if jsTrim id != "" then addUnique s id else s) acc).Nodup := by
  induction ids with
  | nil => intro acc h; simpa
  | cons i is ih =>
    intro acc h
    rw [List.foldl_cons]
    by_cases hc : (jsTrim i != "") = true
    · rw [if_pos hc]
      exact ih _ (addUnique_nodup i h)
    · rw [if_neg hc]
      exact ih _ h

/-! ## The bitmap phase of `summarizeHolders` -/

theorem lookupS_processBitmap_ne {w : String} (m : HolderMap) (b : IBitmap)
    (hne : b.wallet ≠ w) : lookupS w (processBitmap m b) = lookupS w m := by
  rcases hb : b.inscription_ids with _ | ids
  · simp [processBitmap, hb]
  · simp only [processBitmap, hb]
    exact lookupS_setEntry_ne m _ (fun h => hne h.symm)

theorem processBitmap_touch {w : String} (m : HolderMap) (b : IBitmap) (ids : List String)
    (hw : b.wallet = w) (hids : b.inscription_ids = some ids) :
    ∃ v, lookupS w (processBitmap m b) = some v ∧ v.Nodup := by
  subst hw
  refine ⟨ids.foldl (fun s id => if jsTrim id != "" then addUnique s id else s)
      (((lookupS b.wallet m).getD []).foldl addUnique []), ?_, ?_⟩
  · simp only [processBitmap, hids]
    exact lookupS_setEntry_self _ _ _
  · exact foldl_addUnique_cond_nodup ids _ (foldl_addUnique_nodup _ [] List.nodup_nil)

theorem foldl_processBitmap_untouched {w : String} (bs : List IBitmap) :
    ∀ m : HolderMap, (∀ b ∈ bs, ¬(b.wallet = w ∧ b.inscription_ids.isSome)) →
      lookupS w (bs.foldl processBitmap m) = lookupS w m := by
  induction bs with
  | nil => intro m _; rfl
  | cons b rest ih =>
    intro m hall
    rw [List.foldl_cons,
        ih _ (fun b' hb' => hall b' (List.mem_cons_of_mem b hb'))]
    rcases hb : b.inscription_ids with _ | ids
    · simp [processBitmap, hb]
    · have hbw : b.wallet ≠ w := by
        intro hw
        exact hall b (List.mem_cons_self b rest) ⟨hw, by simp [hb]⟩
      exact lookupS_processBitmap_ne m b hbw

theorem foldl_processBitmap_dedup {w : String} (bs : List IBitmap) :
    ∀ m : HolderMap, (∃ b ∈ bs, b.wallet = w ∧ b.inscription_ids.isSome) →
      ∀ v, lookupS w (bs.foldl processBitmap m) = some v → v.Nodup := by
  induction bs with
  | nil => simp
  | cons b rest ih =>
    intro m hex v hv
    rw [List.foldl_cons] at hv
    by_cases hrest : ∃ b' ∈ rest, b'.wallet = w ∧ b'.inscription_ids.isSome
    · exact ih _ hrest v hv
    · have hbt : b.wallet = w ∧ b.inscription_ids.isSome := by
        rcases hex with ⟨b', hb', hcond⟩
        rcases List.mem_cons.mp hb' with rfl | hmem
        · exact hcond
        · exact absurd ⟨b', hmem, hcond⟩ hrest
      obtain ⟨ids, hids⟩ := Option.isSome_iff_exists.mp hbt.2
      have huntouched : ∀ b' ∈ rest, ¬(b'.wallet = w ∧ b'.inscription_ids.isSome) :=
        fun b' hmem hcond => hrest ⟨b', hmem, hcond⟩
      rw [foldl_processBitmap_untouched rest _ huntouched] at hv
      obtain ⟨v', hv', hnd⟩ := processBitmap_touch m b ids hbt.1 hids
      rw [hv'] at hv
      exact (Option.some_inj.mp hv) ▸ hnd

/-! ## The stable insertion sort -/

theorem insertK_perm (keep : α → α → Bool) (x : α) :
    ∀ l : List α, (insertK keep x l).Perm (x :: l) := by
  intro l
  induction l with
  | nil => simp [insertK]
  | cons y ys ih =>
    unfold insertK
    by_cases h : keep y x = true
    · rw [if_pos h]
      exact (ih.cons y).trans (List.Perm.swap x y ys)
    · rw [if_neg h]

theorem insertK_mem {keep : α → α → Bool} {x a : α} {l : List α} :
    a ∈ insertK keep x l ↔ a = x ∨ a ∈ l := by
  rw [(insertK_perm keep x l).mem_iff, List.mem_cons]

theorem sortK_go_perm (keep : α → α → Bool) :
    ∀ (xs acc : List α),
      (xs.foldl (fun acc x => insertK keep x acc) acc).Perm (acc ++ xs) := by
  intro xs
  induction xs with
  | nil => intro acc; simp
  | cons x xs ih =>
    intro acc
    rw [List.foldl_cons]
    refine (ih (insertK keep x acc)).trans ?_
    refine (List.Perm.append_right xs (insertK_perm keep x acc)).trans ?_
    exact List.perm_middle.symm

theorem sortK_perm (keep : α → α → Bool) (l : List α) : (sortK keep l).Perm l := by
  simpa using sortK_go_perm keep l []

theorem sortK_mem {keep : α → α → Bool} {l : List α} {a : α} :
    a ∈ sortK keep l ↔ a ∈ l := (sortK_perm keep l).mem_iff

theorem insertK_pairwise {keep : α → α → Bool} {x : α} :
    ∀ {acc : List α},
      (∀ b ∈ acc, keep b x = true ∨ keep x b = true) →
      (∀ a ∈ x :: acc, ∀ b ∈ x :: acc, ∀ c ∈ x :: acc,
        keep a b = true → keep b c = true → keep a c = true) →
      acc.Pairwise (fun a b => keep a b = true) →
      (insertK keep x acc).Pairwise (fun a b => keep a b = true) := by
  intro acc
  induction acc with
  | nil => intro _ _ _; simp [insertK]
  | cons y ys ih =>
    intro htot htrans hacc
    rw [List.pairwise_cons] at hacc
    obtain ⟨hy, hys⟩ := hacc
    unfold insertK
    by_cases h : keep y x = true
    · rw [if_pos h, List.pairwise_cons]
      constructor
      · intro z hz
        rcases insertK_mem.mp hz with rfl | hz'
        · exact h
        · exact hy z hz'
      · refine ih (fun b hb => htot b (List.mem_cons_of_mem y hb)) ?_ hys
        intro a ha b hb c hc
        have hsub : ∀ d, d ∈ x :: ys → d ∈ x :: y :: ys := by
          intro d hd
          rcases List.mem_cons.mp hd with rfl | hd'
          · exact List.mem_cons_self _ _
          · exact List.mem_cons_of_mem _ (List.mem_cons_of_mem _ hd')
        exact htrans a (hsub a ha) b (hsub b hb) c (hsub c hc)
    · rw [if_neg h, List.pairwise_cons]
      have hxy : keep x y = true := by
        rcases htot y (List.mem_cons_self y ys) with hyx | hxy
        · exact absurd hyx h
        · exact hxy
      constructor
      · intro z hz
        rcases List.mem_cons.mp hz with rfl | hz'
        · exact hxy
        · exact htrans x (List.mem_cons_self _ _)
            y (List.mem_cons_of_mem _ (List.mem_cons_self _ _))
            z (List.mem_cons_of_mem _ (List.mem_cons_of_mem _ hz'))
            hxy (hy z hz')
      · exact List.pairwise_cons.mpr ⟨hy, hys⟩

theorem sortK_pairwise {keep : α → α → Bool} {l : List α}
    (htot : ∀ a ∈ l, ∀ b ∈ l, keep a b = true ∨ keep b a = true)
    (htrans : ∀ a ∈ l, ∀ b ∈ l, ∀ c ∈ l,
      keep a b = true → keep b c = true → keep a c = true) :
    (sortK keep l).Pairwise (fun a b => keep a b = true) := by
  suffices h : ∀ (xs acc : List α), (∀ a ∈ acc, a ∈ l) → (∀ a ∈ xs, a ∈ l) →
      acc.Pairwise (fun a b => keep a b = true) →
      (xs.foldl (fun acc x => insertK keep x acc) acc).Pairwise
        (fun a b => keep a b = true) by
    exact h l [] (by simp) (fun a ha => ha) (by simp)
  intro xs
  induction xs with
  | nil => intro acc _ _ hacc; simpa using hacc
  | cons x xs ih =>
    intro acc haccl hxsl hacc
    rw [List.foldl_cons]
    refine ih (insertK keep x acc) ?_ (fun a ha => hxsl a (List.mem_cons_of_mem x ha)) ?_
    · intro a ha
      rcases insertK_mem.mp ha with rfl | h'
      · exact hxsl a (List.mem_cons_self _ _)
      · exact haccl a h'
    · refine insertK_pairwise ?_ ?_ hacc
      · intro b hb
        exact htot b (haccl b hb) x (hxsl x (List.mem_cons_self _ _))
      · have hsub : ∀ d, d ∈ x :: acc → d ∈ l := by
          intro d hd
          rcases List.mem_cons.mp hd with rfl | hd'
          · exact hxsl d (List.mem_cons_self _ _)
          · exact haccl d hd'
        intro a ha b hb c hc
        exact htrans a (hsub a ha) b (hsub b hb) c (hsub c hc)

theorem pairwise_head_eq {P : α → α → Prop} :
    ∀ {s : List α}, s.Pairwise P → ∀ f0 : α, f0 ∈ s →
      (∀ x ∈ s, x = f0 ∨ (P f0 x ∧ ¬P x f0)) → s.head? = some f0 := by
  intro s
  induction s with
  | nil => intro _ f0 hm; cases hm
  | cons a t _ =>
    intro hp f0 hm hstrict
    rcases hstrict a (List.mem_cons_self a t) with h | ⟨hpa, hna⟩
    · rw [List.head?_cons, h]
    · rcases List.mem_cons.mp hm with rfl | hmem
      · exact absurd hpa hna
      · rw [List.pairwise_cons] at hp
        exact absurd (hp.1 f0 hmem) hna

theorem pairwise_getLast_eq {P : α → α → Prop} :
    ∀ {s : List α}, s.Pairwise P → ∀ M : α, M ∈ s →
      (∀ x ∈ s, x = M ∨ (P x M ∧ ¬P M x)) → s.getLast? = some M := by
  intro s
  induction s with
  | nil => intro _ M hm; cases hm
  | cons a t ih =>
    intro hp M hm hstrict
    cases t with
    | nil =>
      simp only [List.mem_singleton] at hm
      simp [hm]
    | cons b u =>
      rw [List.getLast?_cons_cons]
      rw [List.pairwise_cons] at hp
      refine ih hp.2 M ?_ (fun x hx => hstrict x (List.mem_cons_of_mem a hx))
      rcases List.mem_cons.mp hm with rfl | hmem
      · rcases hstrict b (List.mem_cons_of_mem _ (List.mem_cons_self b u)) with h | ⟨_, hnb⟩
        · rw [← h]; exact List.mem_cons_self b u
        · exact absurd (hp.1 b (List.mem_cons_self b u)) hnb
      · exact hmem

/-! ## Substring scanning: prefixes, occurrences, `split(m)[0]` -/

theorem isPrefixOf_append_self (m b : List Char) : m.isPrefixOf (m ++ b) = true :=
  List.isPrefixOf_iff_prefix.mpr (List.prefix_append m b)

theorem prefix_of_append_le {m x : List Char} (y : List Char)
    (h : m <+: x ++ y) (hle : m.length ≤ x.length) : m <+: x := by
  rw [List.prefix_iff_eq_take] at h
  rw [List.take_append_of_le_length hle] at h
  rw [h]
  exact List.take_prefix _ _

theorem hasSubstr_here (m b : List Char) : hasSubstr m (m ++ b) = true := by
  cases m with
  | nil =>
    cases b with
    | nil => rfl
    | cons c cs => simp [hasSubstr]
  | cons c cs =>
    have h := isPrefixOf_append_self (c :: cs) b
    simp only [List.cons_append] at h ⊢
    simp [hasSubstr, h]

theorem hasSubstr_append (a m b : List Char) : hasSubstr m (a ++ (m ++ b)) = true := by
  induction a with
  | nil => simpa using hasSubstr_here m b
  | cons c cs ih => simp [hasSubstr, ih]

theorem noEarlyOccB_iff {m a : List Char} :
    NoEarlyOccB m a = true ↔
      ∀ i < a.length, m.isPrefixOf (a.drop i ++ m) = false := by
  unfold NoEarlyOccB
  rw [List.all_eq_true]
  constructor
  · intro h i hi
    have := h i (List.mem_range.mpr hi)
    rwa [Bool.not_eq_true'] at this
  · intro h i hi
    rw [Bool.not_eq_true']
    exact h i (List.mem_range.mp hi)

theorem noEarlyOccB_tail {m : List Char} {c : Char} {cs : List Char}
    (h : NoEarlyOccB m (c :: cs) = true) : NoEarlyOccB m cs = true := by
  rw [noEarlyOccB_iff] at h ⊢
  intro i hi
  have := h (i + 1) (by simpa using Nat.succ_lt_succ hi)
  simpa using this

theorem splitHead_extract {m : List Char} (hm : m ≠ []) :
    ∀ (a b : List Char), NoEarlyOccB m a = true → splitHead m (a ++ (m ++ b)) = a := by
  intro a
  induction a with
  | nil =>
    intro b _
    cases m with
    | nil => exact absurd rfl hm
    | cons c cs =>
      have h := isPrefixOf_append_self (c :: cs) b
      simp only [List.nil_append]
      simp only [List.cons_append] at h ⊢
      simp [splitHead, h]
  | cons c cs ih =>
    intro b hno
    have hfirst : m.isPrefixOf ((c :: cs) ++ m) = false := by
      have := noEarlyOccB_iff.mp hno 0 (by simp)
      simpa using this
    have hnotpre : m.isPrefixOf ((c :: cs) ++ (m ++ b)) = false := by
      by_contra hcon
      rw [Bool.not_eq_false] at hcon
      have hp' := List.isPrefixOf_iff_prefix.mp hcon
      rw [show (c :: cs) ++ (m ++ b) = ((c :: cs) ++ m) ++ b by
        simp [List.append_assoc]] at hp'
      have hpre := prefix_of_append_le b hp' (by simp; omega)
      have h2 := List.isPrefixOf_iff_prefix.mpr hpre
      rw [hfirst] at h2
      simp at h2
    simp only [List.cons_append] at hnotpre ⊢
    rw [splitHead]
    rw [if_neg (by simp [hnotpre])]
    have := ih b (noEarlyOccB_tail hno)
    simp only [List.cons_append] at this ⊢
    rw [this]

/-! ## The code-point string order -/

theorem charListLt_irrefl : ∀ l : List Char, charListLt l l = false := by
  intro l
  induction l with
  | nil => rfl
  | cons a as ih =>
    unfold charListLt
    rw [if_neg (lt_irrefl a), if_pos rfl]
    exact ih

theorem charListLt_asymm : ∀ {l₁ l₂ : List Char},
    charListLt l₁ l₂ = true → charListLt l₂ l₁ = false := by
  intro l₁
  induction l₁ with
  | nil =>
    intro l₂ h
    cases l₂ with
    | nil => simp [charListLt] at h
    | cons b bs => rfl
  | cons a as ih =>
    intro l₂ h
    cases l₂ with
    | nil => cases h
    | cons b bs =>
      unfold charListLt at h ⊢
      by_cases hab : a < b
      · rw [if_neg (lt_asymm hab), if_neg (fun hba : b = a => absurd (hba ▸ hab) (lt_irrefl a))]
      · rw [if_neg hab] at h
        by_cases heq : a = b
        · rw [if_pos heq] at h
          rw [if_neg (heq ▸ lt_irrefl a), if_pos heq.symm]
          exact ih h
        · rw [if_neg heq] at h
          cases h

theorem charListLt_trans : ∀ {l₁ l₂ l₃ : List Char},
    charListLt l₁ l₂ = true → charListLt l₂ l₃ = true → charListLt l₁ l₃ = true := by
  intro l₁
  induction l₁ with
  | nil =>
    intro l₂ l₃ h₁ h₂
    cases l₂ with
    | nil => cases h₁
    | cons b bs =>
      cases l₃ with
      | nil => cases h₂
      | cons c cs => rfl
  | cons a as ih =>
    intro l₂ l₃ h₁ h₂
    cases l₂ with
    | nil => cases h₁
    | cons b bs =>
      cases l₃ with
      | nil => cases h₂
      | cons c cs =>
        unfold charListLt at h₁ h₂ ⊢
        by_cases hab : a < b
        · by_cases hbc : b < c
          · rw [if_pos (lt_trans hab hbc)]
          · rw [if_neg hbc] at h₂
            by_cases hbc' : b = c
            · rw [if_pos (hbc' ▸ hab)]
            · rw [if_neg hbc'] at h₂; cases h₂
        · rw [if_neg hab] at h₁
          by_cases hab' : a = b
          · rw [if_pos hab'] at h₁
            by_cases hbc : b < c
            · rw [if_pos (hab' ▸ hbc)]
            · rw [if_neg hbc] at h₂
              by_cases hbc' : b = c
              · rw [if_neg (by rw [hab', hbc']; exact lt_irrefl c),
                    if_pos (hab'.trans hbc')]
                exact ih h₁ (by rw [if_pos hbc'] at h₂; exact h₂)
              · rw [if_neg hbc'] at h₂; cases h₂
          · rw [if_neg hab'] at h₁; cases h₁

theorem charListLt_connex : ∀ {l₁ l₂ : List Char},
    charListLt l₁ l₂ = false → charListLt l₂ l₁ = false → l₁ = l₂ := by
  intro l₁
  induction l₁ with
  | nil =>
    intro l₂ h₁ _
    cases l₂ with
    | nil => rfl
    | cons b bs => cases h₁
  | cons a as ih =>
    intro l₂ h₁ h₂
    cases l₂ with
    | nil => cases h₂
    | cons b bs =>
      unfold charListLt at h₁ h₂
      by_cases hab : a < b
      · rw [if_pos hab] at h₁; cases h₁
      · by_cases hba : b < a
        · rw [if_pos hba] at h₂; cases h₂
        · have heq : a = b := le_antisymm (not_lt.mp hba) (not_lt.mp hab)
          rw [if_neg hab, if_pos heq] at h₁
          rw [if_neg hba, if_pos heq.symm] at h₂
          rw [heq, ih h₁ h₂]

theorem charListLt_cons_self (c : Char) (x y : List Char) :
    charListLt (c :: x) (c :: y) = charListLt x y := by
  show (if c < c then true else if c = c then charListLt x y else false) = charListLt x y
  rw [if_neg (lt_irrefl c), if_pos rfl]

theorem charListLt_append (p : List Char) :
    ∀ a b : List Char, charListLt (p ++ a) (p ++ b) = charListLt a b := by
  induction p with
  | nil => intro a b; rfl
  | cons c cs ih =>
    intro a b
    simp only [List.cons_append]
    rw [charListLt_cons_self]
    exact ih a b

theorem charListLt_cons_lt {a b : Char} (x y : List Char) (h : a < b) :
    charListLt (a :: x) (b :: y) = true := by
  unfold charListLt
  rw [if_pos h]

theorem strKeep_total (a b : String) : strKeep a b = true ∨ strKeep b a = true := by
  unfold strKeep strLt
  by_cases h : charListLt a.data b.data = true
  · left; rw [charListLt_asymm h]; rfl
  · right
    rw [Bool.not_eq_true] at h
    rw [h]
    rfl

theorem strKeep_trans {a b c : String}
    (h₁ : strKeep a b = true) (h₂ : strKeep b c = true) : strKeep a c = true := by
  unfold strKeep strLt at h₁ h₂ ⊢
  rw [Bool.not_eq_true'] at h₁ h₂ ⊢
  by_contra hca
  rw [Bool.not_eq_false] at hca
  cases hbc : charListLt b.data c.data with
  | true =>
    have htr := charListLt_trans hbc hca
    rw [htr] at h₁
    simp at h₁
  | false =>
    have heq := charListLt_connex hbc h₂
    rw [heq] at h₁
    rw [h₁] at hca
    simp at hca

/-! ## Merging disjoint chunks -/

theorem mergeChunk_fresh :
    ∀ (es acc : HolderMap), (∀ k ∈ es.map Prod.fst, lookupS k acc = none) →
      (es.map Prod.fst).Nodup → mergeChunk acc es = acc ++ es := by
  intro es
  induction es with
  | nil => intro acc _ _; simp [mergeChunk]
  | cons e es' ih =>
    intro acc hfresh hnd
    unfold mergeChunk
    rw [List.foldl_cons]
    have h1 : setEntry acc e.1 e.2 = acc ++ [e] := by
      rw [setEntry_of_lookup_none e.2 (hfresh e.1 (by simp))]
    rw [h1]
    rw [List.map_cons, List.nodup_cons] at hnd
    have h2 : ∀ k ∈ es'.map Prod.fst, lookupS k (acc ++ [e]) = none := by
      intro k hk
      have hne : k ≠ e.1 := fun h => hnd.1 (h ▸ hk)
      calc lookupS k (acc ++ [e]) = lookupS k (acc ++ [(e.1, e.2)]) := by rw [Prod.mk.eta]
        _ = lookupS k acc := lookupS_append_single_ne acc e.2 hne
        _ = none := hfresh k (by simp [hk])
    have h3 := ih (acc ++ [e]) h2 hnd.2
    unfold mergeChunk at h3
    rw [h3, List.append_assoc, List.singleton_append]

theorem foldl_mergeChunk_flatten :
    ∀ (L : List HolderMap) (acc : HolderMap),
      ((acc ++ L.flatten).map Prod.fst).Nodup →
      L.foldl mergeChunk acc = acc ++ L.flatten := by
  intro L
  induction L with
  | nil => intro acc _; simp
  | cons C L' ih =>
    intro acc hnd
    rw [List.flatten_cons, ← List.append_assoc] at hnd
    have hnd' := hnd
    rw [List.map_append, List.nodup_append] at hnd'
    have hac := hnd'.1
    rw [List.map_append, List.nodup_append] at hac
    rw [List.foldl_cons]
    have hCfresh : ∀ k ∈ C.map Prod.fst, lookupS k acc = none := by
      intro k hk
      rw [lookupS_eq_none_iff]
      intro hkacc
      exact hac.2.2 hkacc hk
    rw [List.flatten_cons, mergeChunk_fresh C acc hCfresh hac.2.1,
        ih (acc ++ C) hnd, List.append_assoc]

theorem lookupS_eq_some_iff_mem {m : HolderMap} (hnd : (m.map Prod.fst).Nodup)
    (k : String) (v : List String) : lookupS k m = some v ↔ (k, v) ∈ m := by
  induction m with
  | nil => simp [lookupS]
  | cons e es ih =>
    rw [List.map_cons, List.nodup_cons] at hnd
    by_cases he : e.1 = k
    · simp only [lookupS, he, if_true, List.mem_cons]
      constructor
      · intro h
        left
        have hv := Option.some_inj.mp h
        rw [← he, ← hv, Prod.mk.eta]
      · rintro (h | h)
        · rw [← h]
        · exact absurd (he ▸ List.mem_map_of_mem Prod.fst h) hnd.1
    · simp only [lookupS, he, if_false, List.mem_cons]
      rw [ih hnd.2]
      constructor
      · exact Or.inr
      · rintro (h | h)
        · exact absurd (congrArg Prod.fst h).symm he
        · exact h

theorem lookupS_eq_of_perm {m m' : HolderMap} (hnd : (m.map Prod.fst).Nodup)
    (hp : m.Perm m') : ∀ k, lookupS k m' = lookupS k m := by
  intro k
  have hnd' : (m'.map Prod.fst).Nodup := ((hp.map Prod.fst).nodup_iff).mp hnd
  cases h : lookupS k m with
  | some v =>
    rw [lookupS_eq_some_iff_mem hnd' k v]
    exact hp.subset ((lookupS_eq_some_iff_mem hnd k v).mp h)
  | none =>
    rw [lookupS_eq_none_iff] at h ⊢
    intro hk
    exact h (((hp.map Prod.fst).mem_iff).mpr hk)

/-! ## Keys of the cleaned map -/

theorem cleanEntry_fst {e b : String × List String} (h : cleanEntry e = some b) :
    b.1 = e.1 := by
  unfold cleanEntry at h
  by_cases h1 : jsTrim e.1 = ""
  · rw [if_pos h1] at h; cases h
  · rw [if_neg h1] at h
    simp only at h
    by_cases h2 : (e.2.filter validInscription).isEmpty
    · rw [if_pos h2] at h; cases h
    · rw [if_neg h2] at h
      rw [← Option.some_inj.mp h]

theorem cleanHolders_keys_sublist (m : HolderMap) :
    ((cleanHolders m).map Prod.fst).Sublist (m.map Prod.fst) := by
  induction m with
  | nil => simp [cleanHolders]
  | cons e es ih =>
    unfold cleanHolders at ih ⊢
    rw [List.filterMap_cons]
    cases h : cleanEntry e with
    | none =>
      rw [List.map_cons]
      exact ih.trans (List.sublist_cons_self _ _)
    | some b =>
      rw [List.map_cons, List.map_cons, cleanEntry_fst h]
      exact ih.cons₂ e.1

theorem cleanHolders_keys_nodup {m : HolderMap} (hnd : (m.map Prod.fst).Nodup) :
    ((cleanHolders m).map Prod.fst).Nodup :=
  (cleanHolders_keys_sublist m).nodup hnd

theorem map_lookup_self (m : HolderMap) (hnd : (m.map Prod.fst).Nodup) :
    (m.map Prod.fst).map (fun w => (w, (lookupS w m).getD [])) = m := by
  induction m with
  | nil => rfl
  | cons e es ih =>
    rw [List.map_cons, List.nodup_cons] at hnd
    rw [List.map_cons, List.map_cons]
    have h1 : lookupS e.1 (e :: es) = some e.2 := by simp [lookupS]
    rw [h1]
    have h2 : (es.map Prod.fst).map (fun w => (w, (lookupS w (e :: es)).getD []))
        = (es.map Prod.fst).map (fun w => (w, (lookupS w es).getD [])) := by
      rw [List.map_eq_map_iff]
      intro w hw
      have hne : e.1 ≠ w := fun h => hnd.1 (h ▸ hw)
      simp only [lookupS, hne, if_false]
    rw [h2, ih hnd.2, Option.getD_some, Prod.mk.eta]

/-! ## `chunksOf` recomposition -/

theorem chunksOf_flatten {n : Nat} (hn : n ≠ 0) :
    ∀ l : List α, (chunksOf n l).flatten = l := by
  have key : ∀ (N : Nat) (l : List α), l.length ≤ N → (chunksOf n l).flatten = l := by
    intro N
    induction N with
    | zero =>
      intro l hl
      rw [Nat.le_zero] at hl
      rw [List.length_eq_zero.mp hl]
      simp [chunksOf]
    | succ N ih =>
      intro l hl
      cases l with
      | nil => simp [chunksOf]
      | cons x xs =>
        rw [chunksOf, if_neg hn, List.flatten_cons,
            ih ((x :: xs).drop n) (by simp at hl ⊢; omega),
            List.take_append_drop]
  exact fun l => key l.length l le_rfl

theorem chunksOf_length_le {n : Nat} (hn : n ≠ 0) (k : Nat) :
    ∀ l : List α, l.length ≤ k * n → (chunksOf n l).length ≤ k := by
  induction k with
  | zero =>
    intro l hl
    rw [Nat.zero_mul, Nat.le_zero] at hl
    rw [List.length_eq_zero.mp hl]
    simp [chunksOf]
  | succ k ih =>
    intro l hl
    cases l with
    | nil => simp [chunksOf]
    | cons x xs =>
      rw [chunksOf, if_neg hn, List.length_cons]
      rw [Nat.succ_mul] at hl
      have := ih ((x :: xs).drop n) (by simp at hl ⊢; omega)
      omega

theorem chunksOf_mem_length {n : Nat} :
    ∀ (l : List α) (c : List α), c ∈ chunksOf n l → c.length ≤ n := by
  have key : ∀ (N : Nat) (l : List α), l.length ≤ N →
      ∀ c ∈ chunksOf n l, c.length ≤ n := by
    intro N
    induction N with
    | zero =>
      intro l hl
      rw [Nat.le_zero] at hl
      rw [List.length_eq_zero.mp hl]
      simp [chunksOf]
    | succ N ih =>
      intro l hl c hc
      cases l with
      | nil => simp [chunksOf] at hc
      | cons x xs =>
        by_cases hn : n = 0
        · rw [chunksOf, if_pos hn] at hc
          cases hc
        · rw [chunksOf, if_neg hn] at hc
          rcases List.mem_cons.mp hc with rfl | hc'
          · exact List.length_take_le n (x :: xs)
          · exact ih ((x :: xs).drop n) (by simp at hl ⊢; omega) c hc'
  exact fun l => key l.length l le_rfl

theorem chunksOf_ne_nil {n : Nat} (hn : n ≠ 0) (x : α) (xs : List α) :
    chunksOf n (x :: xs) ≠ [] := by
  rw [chunksOf, if_neg hn]
  simp

/-! ## Filenames: the two `saveHoldersSummaryToFile` branches and name shapes -/

theorem save_single_branch (clock : Nat → String) (m : HolderMap)
    (hsplit : shouldSplit (cleanHolders m) = false) :
    saveHoldersSummaryToFile clock m
      = [("holderSummary-" ++ clock 0 ++ ".json", cleanHolders m)] := by
  unfold saveHoldersSummaryToFile
  simp [hsplit]

theorem save_chunk_branch (clock : Nat → String) (m : HolderMap)
    (hsplit : shouldSplit (cleanHolders m) = true) :
    saveHoldersSummaryToFile clock m
      = (chunksOf ((((cleanHolders m).map Prod.fst).length + 4) / 5)
          ((cleanHolders m).map Prod.fst)).enum.map
          (fun ke =>
            ("holderSummary-" ++ clock ke.1 ++ "-chunk" ++ toString (ke.1 + 1) ++ ".json",
             ke.2.map (fun w => (w, (lookupS w (cleanHolders m)).getD [])))) := by
  unfold saveHoldersSummaryToFile
  simp [hsplit]

theorem cleanHolders_ne_nil_of_split {m : HolderMap}
    (hsplit : shouldSplit (cleanHolders m) = true) : cleanHolders m ≠ [] := by
  intro h
  rw [h] at hsplit
  exact absurd hsplit (by decide)

theorem startsWithS_of_data_prefix {p s : String} (r : List Char)
    (h : s.data = p.data ++ r) : startsWithS p s = true := by
  unfold startsWithS
  rw [h]
  exact isPrefixOf_append_self _ _

theorem endsWithS_of_data_suffix {p s : String} (r : List Char)
    (h : s.data = r ++ p.data) : endsWithS p s = true := by
  unfold endsWithS List.isSuffixOf
  rw [h, List.reverse_append]
  exact isPrefixOf_append_self _ _

theorem containsS_of_data {p s : String} (a b : List Char)
    (h : s.data = a ++ (p.data ++ b)) : containsS p s = true := by
  unfold containsS
  rw [h]
  exact hasSubstr_append a _ b

/-! ## `getLatestHoldersSummaryFile` on a chunk set -/

theorem getLatest_chunkset (ts : String) (files : List String)
    (readFile : String → HolderMap)
    (hno : NoEarlyOccB "-chunk".data ("holderSummary-" ++ ts).data = true)
    (hne : files ≠ [])
    (hshape : ∀ f ∈ files, ∃ suffix : List Char,
        f.data = ("holderSummary-" ++ ts).data ++ ("-chunk".data ++ suffix)
        ∧ ∃ front : List Char, f.data = front ++ ".json".data) :
    getLatestHoldersSummaryFile files readFile
      = some (("holderSummary-" ++ ts) ++ ".json",
          [(("holderSummary-" ++ ts) ++ ".json",
            (sortK chunkKeep files).foldl (fun acc f => mergeChunk acc (readFile f)) [])]) := by
  set pre := "holderSummary-" ++ ts with hpre
  have hpredata : pre.data = "holderSummary-".data ++ ts.data := String.data_append _ _
  have hfilter : files.filter holderSummaryFileFilter = files := by
    apply List.filter_eq_self.mpr
    intro f hf
    obtain ⟨suffix, hdata, front, hfront⟩ := hshape f hf
    unfold holderSummaryFileFilter
    rw [Bool.and_eq_true]
    refine ⟨?_, endsWithS_of_data_suffix front hfront⟩
    apply startsWithS_of_data_prefix (ts.data ++ ("-chunk".data ++ suffix))
    rw [hdata, hpredata, List.append_assoc]
  have hsne : (sortK strKeep files).reverse ≠ [] := by
    intro h
    apply hne
    rw [List.reverse_eq_nil_iff] at h
    have hlen := (sortK_perm strKeep files).length_eq
    rw [h] at hlen
    exact List.length_eq_zero.mp hlen.symm
  unfold getLatestHoldersSummaryFile
  rw [hfilter]
  cases hh : (sortK strKeep files).reverse.head? with
  | none => exact absurd (List.head?_eq_none_iff.mp hh) hsne
  | some latest =>
    have hlat_mem : latest ∈ files := by
      have h1 := List.mem_of_mem_head? hh
      rw [List.mem_reverse] at h1
      exact sortK_mem.mp h1
    obtain ⟨suffix, hdata, front, hfront⟩ := hshape latest hlat_mem
    have hcont : containsS "chunk" latest = true := by
      apply containsS_of_data (pre.data ++ ['-']) suffix
      rw [hdata]
      simp [List.append_assoc]
    have hsplitH : splitHead "-chunk".data latest.data = pre.data := by
      rw [hdata]
      exact splitHead_extract (by decide) pre.data suffix hno
    have htimestamp : (⟨splitHead "-chunk".data latest.data⟩ : String) = pre := by
      rw [hsplitH]
    have hpre_ne : ¬(pre = "") := by
      intro h
      have h2 := congrArg String.data h
      rw [hpredata] at h2
      rcases List.append_eq_nil.mp h2 with ⟨h3, _⟩
      exact absurd h3 (by decide)
    have hcfilter :
        files.filter (fun f => startsWithS pre f && containsS "chunk" f) = files := by
      apply List.filter_eq_self.mpr
      intro f hf
      obtain ⟨sf, hdf, frf, hff⟩ := hshape f hf
      rw [Bool.and_eq_true]
      constructor
      · exact startsWithS_of_data_prefix _ hdf
      · apply containsS_of_data (pre.data ++ ['-']) sf
        rw [hdf]
        simp [List.append_assoc]
    simp only [hh, hcont, htimestamp, if_true, hcfilter, if_neg hpre_ne]

/-- Evaluate the chunk-merge fold: reading back the writes and folding the
upserts over any processing order of disjoint-keyed chunks yields (a
permutation-flattening of) the written contents. -/
theorem merged_fold_spec (readFile : String → HolderMap)
    (writes : List (String × HolderMap))
    (hread : ∀ e ∈ writes, readFile e.1 = e.2)
    (hnd : (((writes.map Prod.snd).flatten).map Prod.fst).Nodup) :
    ∃ L : List HolderMap, L.Perm (writes.map Prod.snd)
      ∧ (sortK chunkKeep (writes.map Prod.fst)).foldl
          (fun acc f => mergeChunk acc (readFile f)) [] = L.flatten := by
  have h2 : (writes.map Prod.fst).map readFile = writes.map Prod.snd := by
    rw [List.map_map]
    exact List.map_eq_map_iff.mpr (fun e he => hread e he)
  have h1 : ((sortK chunkKeep (writes.map Prod.fst)).map readFile).Perm
      (writes.map Prod.snd) := by
    rw [← h2]
    exact (sortK_perm _ _).map readFile
  refine ⟨(sortK chunkKeep (writes.map Prod.fst)).map readFile, h1, ?_⟩
  rw [← List.foldl_map]
  have hnd' : ((((sortK chunkKeep (writes.map Prod.fst)).map readFile).flatten).map
      Prod.fst).Nodup := by
    have := (h1.flatten.map Prod.fst).nodup_iff
    exact this.mpr hnd
  have := foldl_mergeChunk_flatten
      ((sortK chunkKeep (writes.map Prod.fst)).map readFile) [] (by simpa using hnd')
  simpa using this

/-! ## `getLatestHoldersSummaryFile` when a single file is the newest -/

theorem getLatest_single (files : List String) (readFile : String → HolderMap)
    (M : String) (hM : M ∈ files) (hMf : holderSummaryFileFilter M = true)
    (hMnc : containsS "chunk" M = false)
    (hmax : ∀ f ∈ files, holderSummaryFileFilter f = true →
      f = M ∨ strLt f M = true) :
    getLatestHoldersSummaryFile files readFile = some (M, []) := by
  have hMfil : M ∈ files.filter holderSummaryFileFilter :=
    List.mem_filter.mpr ⟨hM, hMf⟩
  have hpw := @sortK_pairwise _ strKeep (files.filter holderSummaryFileFilter)
      (fun a _ b _ => strKeep_total a b)
      (fun a _ b _ c _ hab hbc => strKeep_trans hab hbc)
  have hlast : (sortK strKeep (files.filter holderSummaryFileFilter)).getLast? = some M := by
    apply pairwise_getLast_eq hpw M (sortK_mem.mpr hMfil)
    intro x hx
    have hxfil := sortK_mem.mp hx
    have hxmem := (List.mem_filter.mp hxfil).1
    have hxf := (List.mem_filter.mp hxfil).2
    rcases hmax x hxmem hxf with h | h
    · exact Or.inl h
    · right
      constructor
      · rw [show strKeep x M = !(strLt M x) from rfl]
        unfold strLt at h ⊢
        rw [charListLt_asymm h]
        rfl
      · rw [show strKeep M x = !(strLt x M) from rfl, h]
        simp
  unfold getLatestHoldersSummaryFile
  dsimp only
  rw [List.head?_reverse, hlast]
  simp [hMnc]

/-! ## Shape of the chunk-branch writes -/

theorem shouldSplit_iff {m : HolderMap} :
    shouldSplit m = true ↔ 52428800 < estimatedSize m ∨ 100000 < m.length := by
  simp [shouldSplit, maxSize, Bool.or_eq_true, decide_eq_true_iff]

theorem save_writes_snd (clock : Nat → String) (m : HolderMap)
    (hsplit : shouldSplit (cleanHolders m) = true) :
    (saveHoldersSummaryToFile clock m).map Prod.snd
      = (chunksOf ((((cleanHolders m).map Prod.fst).length + 4) / 5)
          ((cleanHolders m).map Prod.fst)).map
          (fun sl => sl.map (fun w => (w, (lookupS w (cleanHolders m)).getD []))) := by
  rw [save_chunk_branch clock m hsplit, List.map_map]
  show (chunksOf ((((cleanHolders m).map Prod.fst).length + 4) / 5)
      ((cleanHolders m).map Prod.fst)).enum.map
      (fun ke => ke.2.map (fun w => (w, (lookupS w (cleanHolders m)).getD []))) = _
  rw [show ((chunksOf ((((cleanHolders m).map Prod.fst).length + 4) / 5)
        ((cleanHolders m).map Prod.fst)).enum.map
        (fun ke : Nat × List String =>
          ke.2.map (fun w => (w, (lookupS w (cleanHolders m)).getD []))))
      = ((chunksOf ((((cleanHolders m).map Prod.fst).length + 4) / 5)
          ((cleanHolders m).map Prod.fst)).enum.map Prod.snd).map
          (fun sl => sl.map (fun w => (w, (lookupS w (cleanHolders m)).getD [])))
    from by rw [List.map_map]; rfl]
  rw [List.enum_map_snd]

theorem chunkSize_ne_zero {m : HolderMap}
    (hsplit : shouldSplit (cleanHolders m) = true) :
    (((cleanHolders m).map Prod.fst).length + 4) / 5 ≠ 0 := by
  have hcne : cleanHolders m ≠ [] := cleanHolders_ne_nil_of_split hsplit
  have hksne : (cleanHolders m).map Prod.fst ≠ [] :=
    fun h => hcne (List.map_eq_nil_iff.mp h)
  have hkspos : 0 < ((cleanHolders m).map Prod.fst).length := List.length_pos.mpr hksne
  omega

theorem save_writes_flatten (clock : Nat → String) (m : HolderMap)
    (hnd : (m.map Prod.fst).Nodup)
    (hsplit : shouldSplit (cleanHolders m) = true) :
    ((saveHoldersSummaryToFile clock m).map Prod.snd).flatten = cleanHolders m := by
  rw [save_writes_snd clock m hsplit, ← List.map_flatten,
      chunksOf_flatten (chunkSize_ne_zero hsplit),
      map_lookup_self (cleanHolders m) (cleanHolders_keys_nodup hnd)]

theorem save_mem_shape (clock : Nat → String) (m : HolderMap)
    (hsplit : shouldSplit (cleanHolders m) = true) :
    ∀ e ∈ saveHoldersSummaryToFile clock m, ∃ k : Nat,
      e.1 = "holderSummary-" ++ clock k ++ "-chunk" ++ toString (k + 1) ++ ".json" := by
  intro e he
  rw [save_chunk_branch clock m hsplit, List.mem_map] at he
  obtain ⟨ke, _, hkew⟩ := he
  exact ⟨ke.1, by rw [← hkew]⟩

theorem save_ne_nil (clock : Nat → String) (m : HolderMap)
    (hsplit : shouldSplit (cleanHolders m) = true) :
    saveHoldersSummaryToFile clock m ≠ [] := by
  rw [save_chunk_branch clock m hsplit]
  have hcne : cleanHolders m ≠ [] := cleanHolders_ne_nil_of_split hsplit
  have hksne : (cleanHolders m).map Prod.fst ≠ [] :=
    fun h => hcne (List.map_eq_nil_iff.mp h)
  cases hks : (cleanHolders m).map Prod.fst with
  | nil => exact absurd hks hksne
  | cons k ks' =>
    intro h
    have h2 := List.map_eq_nil_iff.mp h
    have h3 := congrArg List.length h2
    rw [List.enum_length] at h3
    exact chunksOf_ne_nil (hks ▸ chunkSize_ne_zero hsplit) k ks'
      (List.length_eq_zero.mp h3)

theorem save_length_le (clock : Nat → String) (m : HolderMap)
    (hsplit : shouldSplit (cleanHolders m) = true) :
    (saveHoldersSummaryToFile clock m).length ≤ 5 := by
  rw [save_chunk_branch clock m hsplit, List.length_map, List.enum_length]
  apply chunksOf_length_le (chunkSize_ne_zero hsplit)
  have h5 := Nat.div_add_mod (((cleanHolders m).map Prod.fst).length + 4) 5
  have hm5 : (((cleanHolders m).map Prod.fst).length + 4) % 5 < 5 :=
    Nat.mod_lt _ (by omega)
  omega

theorem save_chunk_small (clock : Nat → String) (m : HolderMap)
    (hsplit : shouldSplit (cleanHolders m) = true) :
    ∀ e ∈ saveHoldersSummaryToFile clock m,
      e.2.length ≤ (((cleanHolders m).map Prod.fst).length + 4) / 5 := by
  intro e he
  rw [save_chunk_branch clock m hsplit, List.mem_map] at he
  obtain ⟨ke, hkemem, hkew⟩ := he
  have h1 : ke.2 ∈ chunksOf ((((cleanHolders m).map Prod.fst).length + 4) / 5)
      ((cleanHolders m).map Prod.fst) := by
    have := List.mem_map_of_mem Prod.snd hkemem
    rwa [List.enum_map_snd] at this
  have h2 := chunksOf_mem_length _ _ h1
  rw [← hkew]
  simpa using h2

/-! ## The round trip through save and merge -/

theorem roundtrip_core (m : HolderMap) (ts : String) (readFile : String → HolderMap)
    (hnd : (m.map Prod.fst).Nodup)
    (hsplit : shouldSplit (cleanHolders m) = true)
    (hno : NoEarlyOccB "-chunk".data ("holderSummary-" ++ ts).data = true)
    (hread : ∀ e ∈ saveHoldersSummaryToFile (fun _ => ts) m, readFile e.1 = e.2) :
    ∃ merged,
      getLatestHoldersSummaryFile
          ((saveHoldersSummaryToFile (fun _ => ts) m).map Prod.fst) readFile
        = some ("holderSummary-" ++ ts ++ ".json",
                [("holderSummary-" ++ ts ++ ".json", merged)])
      ∧ merged.Perm (cleanHolders m)
      ∧ ∀ w, lookupS w merged = lookupS w (cleanHolders m) := by
  have hckeys : ((cleanHolders m).map Prod.fst).Nodup := cleanHolders_keys_nodup hnd
  have hflat := save_writes_flatten (fun _ => ts) m hnd hsplit
  have hfne : (saveHoldersSummaryToFile (fun _ => ts) m).map Prod.fst ≠ [] :=
    fun h => save_ne_nil (fun _ => ts) m hsplit (List.map_eq_nil_iff.mp h)
  have hshape : ∀ f ∈ (saveHoldersSummaryToFile (fun _ => ts) m).map Prod.fst,
      ∃ suffix : List Char,
        f.data = ("holderSummary-" ++ ts).data ++ ("-chunk".data ++ suffix)
        ∧ ∃ front : List Char, f.data = front ++ ".json".data := by
    intro f hf
    rw [List.mem_map] at hf
    obtain ⟨w, hwmem, hfw⟩ := hf
    obtain ⟨k, hk⟩ := save_mem_shape (fun _ => ts) m hsplit w hwmem
    subst hfw
    rw [hk]
    refine ⟨(toString (k + 1)).data ++ ".json".data, ?_,
      ("holderSummary-" ++ ts ++ "-chunk" ++ toString (k + 1)).data, ?_⟩
    · simp [String.data_append, List.append_assoc]
    · simp [String.data_append, List.append_assoc]
  have hmain := getLatest_chunkset ts
      ((saveHoldersSummaryToFile (fun _ => ts) m).map Prod.fst) readFile hno hfne hshape
  obtain ⟨L, hLperm, hfold⟩ := merged_fold_spec readFile
      (saveHoldersSummaryToFile (fun _ => ts) m) hread (by rw [hflat]; exact hckeys)
  refine ⟨L.flatten, ?_, ?_, ?_⟩
  · rw [hmain, hfold]
  · have h := hLperm.flatten
    rwa [hflat] at h
  · intro w
    have h := hLperm.flatten
    rw [hflat] at h
    exact lookupS_eq_of_perm hckeys h.symm w

/-! ## The manual encoder is total with bounded fuel -/

theorem encoder_total :
    ∀ (fuel : Nat) (g : JGraph),
      (∀ node depth, 1 ≤ fuel → 12 ≤ fuel + depth →
        (processObject g fuel node depth).isSome)
      ∧ (∀ elems depth isFirst, 1 ≤ fuel → 12 ≤ fuel + depth →
          (processElems g fuel depth elems isFirst).isSome)
      ∧ (∀ fields depth isFirst, 1 ≤ fuel → 12 ≤ fuel + depth →
          (processFields g fuel depth fields isFirst).isSome) := by
  intro fuel
  induction fuel with
  | zero =>
    intro g
    exact ⟨fun node depth h1 _ => absurd h1 (by omega),
           fun elems depth isFirst h1 _ => absurd h1 (by omega),
           fun fields depth isFirst h1 _ => absurd h1 (by omega)⟩
  | succ f ih =>
    intro g
    have hobj : ∀ node depth, 12 ≤ (f + 1) + depth →
        (processObject g (f + 1) node depth).isSome := by
      intro node depth hd
      rw [processObject]
      by_cases hdep : 10 < depth
      · rw [if_pos hdep]; rfl
      · rw [if_neg hdep]
        have hf1 : 1 ≤ f := by omega
        have hd1 : 12 ≤ f + (depth + 1) := by omega
        cases hg : g node with
        | jarr elems =>
          obtain ⟨cs, hcs⟩ :=
            Option.isSome_iff_exists.mp ((ih g).2.1 elems (depth + 1) true hf1 hd1)
          simp [hcs]
        | jobj fields =>
          obtain ⟨cs, hcs⟩ :=
            Option.isSome_iff_exists.mp ((ih g).2.2 fields (depth + 1) true hf1 hd1)
          simp [hcs]
        | jnull => simp
        | jbool b => simp
        | jnum n => simp
        | jstr s => simp
    refine ⟨fun node depth _ hd => hobj node depth hd, ?_, ?_⟩
    · intro elems
      induction elems with
      | nil => intro depth isFirst _ _; simp [processElems]
      | cons e es ihe =>
        intro depth isFirst h1 hd
        rw [processElems]
        obtain ⟨c, hc⟩ := Option.isSome_iff_exists.mp (hobj e depth hd)
        obtain ⟨r, hr⟩ := Option.isSome_iff_exists.mp (ihe depth false h1 hd)
        simp [hc, hr]
    · intro fields
      induction fields with
      | nil => intro depth isFirst _ _; simp [processFields]
      | cons fd fds ihf =>
        intro depth isFirst h1 hd
        rw [processFields]
        obtain ⟨c, hc⟩ := Option.isSome_iff_exists.mp (hobj fd.2 depth hd)
        obtain ⟨r, hr⟩ := Option.isSome_iff_exists.mp (ihf depth false h1 hd)
        simp [hc, hr]

/-! ## Evaluating the writer on the large sample inputs

`sampleBig1`/`sampleBig2` carry a `List.replicate 1050000` identifier list,
so these evaluations go through lemmas about `replicate` instead of kernel
computation. -/

theorem cleanEntry_valid_replicate (w : String) (hw : ¬(jsTrim w = ""))
    (N : Nat) (hN : N ≠ 0) :
    cleanEntry (w, List.replicate N "a") = some (w, List.replicate N "a") := by
  have hfil : (List.replicate N "a").filter validInscription = List.replicate N "a" :=
    List.filter_eq_self.mpr (fun x hx => by rw [List.eq_of_mem_replicate hx]; decide)
  have hne : ¬((List.replicate N "a").isEmpty = true) := by
    cases N with
    | zero => exact absurd rfl hN
    | succ k => rw [List.replicate_succ]; simp
  simp [cleanEntry, hw, hfil, hne]

theorem clean_sampleBig1 : cleanHolders sampleBig1 = sampleBig1 := by
  have h := cleanEntry_valid_replicate "w" (by decide) 1050000 (by decide)
  unfold cleanHolders sampleBig1
  rw [List.filterMap_cons_some h, List.filterMap_nil]

theorem clean_sampleBig2 : cleanHolders sampleBig2 = sampleBig2 := by
  have h1 := cleanEntry_valid_replicate "w1" (by decide) 1050000 (by decide)
  have h2 : cleanEntry ("w2", ["b"]) = some ("w2", ["b"]) := by decide
  unfold cleanHolders sampleBig2
  rw [List.filterMap_cons_some h1, List.filterMap_cons_some h2, List.filterMap_nil]

theorem estimate_sampleBig1 : 52428800 < estimatedSize (cleanHolders sampleBig1) := by
  have hl : (cleanHolders sampleBig1).length = 1 := by rw [clean_sampleBig1]; rfl
  have ht : totalInscriptions (cleanHolders sampleBig1) = 1050000 := by
    rw [clean_sampleBig1]
    unfold totalInscriptions sampleBig1
    rw [List.map_cons, List.map_nil, List.sum_cons, List.sum_nil]
    rw [show ((("w", List.replicate 1050000 "a") : String × List String).2).length
        = 1050000 from by rw [List.length_replicate]]
    omega
  rw [estimatedSize, hl, ht]
  decide

theorem shouldSplit_sampleBig1 : shouldSplit (cleanHolders sampleBig1) = true :=
  shouldSplit_iff.mpr (Or.inl estimate_sampleBig1)

theorem estimate_sampleBig2 : 52428800 < estimatedSize (cleanHolders sampleBig2) := by
  have hl : (cleanHolders sampleBig2).length = 2 := by rw [clean_sampleBig2]; rfl
  have ht : totalInscriptions (cleanHolders sampleBig2) = 1050001 := by
    rw [clean_sampleBig2]
    unfold totalInscriptions sampleBig2
    rw [List.map_cons, List.map_cons, List.map_nil, List.sum_cons, List.sum_cons,
        List.sum_nil]
    rw [show ((("w1", List.replicate 1050000 "a") : String × List String).2).length
        = 1050000 from by rw [List.length_replicate],
      show ((("w2", ["b"]) : String × List String).2).length = 1 from rfl]
    omega
  rw [estimatedSize, hl, ht]
  decide

theorem shouldSplit_sampleBig2 : shouldSplit (cleanHolders sampleBig2) = true :=
  shouldSplit_iff.mpr (Or.inl estimate_sampleBig2)

theorem save_sampleBig1 (clock : Nat → String) :
    saveHoldersSummaryToFile clock sampleBig1
      = [("holderSummary-" ++ clock 0 ++ "-chunk" ++ toString (0 + 1) ++ ".json",
          [("w", List.replicate 1050000 "a")])] := by
  rw [save_chunk_branch clock sampleBig1 shouldSplit_sampleBig1, clean_sampleBig1]
  rw [show sampleBig1.map Prod.fst = ["w"] from rfl]
  rw [show chunksOf (((["w"] : List String).length + 4) / 5) ["w"] = [["w"]] from by
    show chunksOf 1 ["w"] = [["w"]]
    rw [chunksOf.eq_def]
    show (if 1 = 0 then [] else ["w"].take 1 :: chunksOf 1 (["w"].drop 1)) = [["w"]]
    rw [if_neg (by decide)]
    rw [show (["w"] : List String).take 1 = ["w"] from rfl,
        show (["w"] : List String).drop 1 = ([] : List String) from rfl]
    rw [chunksOf.eq_def]]
  rw [show ([["w"]] : List (List String)).enum = [(0, ["w"])] from rfl]
  rw [List.map_cons, List.map_nil, List.map_cons, List.map_nil]
  have hlook : lookupS "w" sampleBig1 = some (List.replicate 1050000 "a") := by
    unfold sampleBig1
    rw [lookupS, if_pos rfl]
  rw [hlook, Option.getD_some]

theorem save_sampleBig2 (clock : Nat → String) :
    saveHoldersSummaryToFile clock sampleBig2
      = [("holderSummary-" ++ clock 0 ++ "-chunk" ++ toString (0 + 1) ++ ".json",
          [("w1", List.replicate 1050000 "a")]),
         ("holderSummary-" ++ clock 1 ++ "-chunk" ++ toString (1 + 1) ++ ".json",
          [("w2", ["b"])])] := by
  rw [save_chunk_branch clock sampleBig2 shouldSplit_sampleBig2, clean_sampleBig2]
  rw [show sampleBig2.map Prod.fst = ["w1", "w2"] from rfl]
  rw [show chunksOf (((["w1", "w2"] : List String).length + 4) / 5) ["w1", "w2"]
      = [["w1"], ["w2"]] from by
    show chunksOf 1 ["w1", "w2"] = [["w1"], ["w2"]]
    rw [chunksOf.eq_def]
    show (if 1 = 0 then [] else ["w1", "w2"].take 1 :: chunksOf 1 (["w1", "w2"].drop 1))
        = [["w1"], ["w2"]]
    rw [if_neg (by decide)]
    rw [show (["w1", "w2"] : List String).take 1 = ["w1"] from rfl,
        show (["w1", "w2"] : List String).drop 1 = ["w2"] from rfl]
    rw [chunksOf.eq_def]
    show (["w1"] :: if 1 = 0 then [] else ["w2"].take 1 :: chunksOf 1 (["w2"].drop 1))
        = [["w1"], ["w2"]]
    rw [if_neg (by decide)]
    rw [show (["w2"] : List String).take 1 = ["w2"] from rfl,
        show (["w2"] : List String).drop 1 = ([] : List String) from rfl]
    rw [chunksOf.eq_def]]
  rw [show ([["w1"], ["w2"]] : List (List String)).enum = [(0, ["w1"]), (1, ["w2"])]
    from rfl]
  rw [List.map_cons, List.map_cons, List.map_nil, List.map_cons, List.map_nil,
      List.map_cons, List.map_nil]
  have hl1 : lookupS "w1" sampleBig2 = some (List.replicate 1050000 "a") := by
    unfold sampleBig2
    rw [lookupS, if_pos rfl]
  have hl2 : lookupS "w2" sampleBig2 = some ["b"] := by
    unfold sampleBig2
    rw [lookupS, if_neg (by decide), lookupS, if_pos rfl]
  rw [hl1, hl2, Option.getD_some, Option.getD_some]

/-! # Claim theorems -/

/-- C1 (amended): round-trip of the chunked persistence, under the proviso
(forced by the per-chunk timestamp bug, see the C3 theorem) that every
`new Date()` call of the chunked write observes the same timestamp `ts`:
for every wallet map with distinct keys that the writer splits, merging the
chunk files back via `getLatestHoldersSummaryFile` persists and returns a
single merged file whose mapping contains exactly the cleaned wallets, each
bound to its original identifier list. -/
theorem chunk_roundtrip (m : HolderMap) (ts : String) (readFile : String → HolderMap)
    (hnd : (m.map Prod.fst).Nodup)
    (hsplit : shouldSplit (cleanHolders m) = true)
    (hno : NoEarlyOccB "-chunk".data ("holderSummary-" ++ ts).data = true)
    (hread : ∀ e ∈ saveHoldersSummaryToFile (fun _ => ts) m, readFile e.1 = e.2) :
    ∃ merged,
      getLatestHoldersSummaryFile
          ((saveHoldersSummaryToFile (fun _ => ts) m).map Prod.fst) readFile
        = some ("holderSummary-" ++ ts ++ ".json",
                [("holderSummary-" ++ ts ++ ".json", merged)])
      ∧ merged.Perm (cleanHolders m)
      ∧ ∀ w, lookupS w merged = lookupS w (cleanHolders m) :=
  roundtrip_core m ts readFile hnd hsplit hno hread

/-- C1 (counterexample): when the clock advances between the two chunk
writes (`T1` then `T2`), the writer names the chunks with different
timestamps; the merge then only collects the chunks matching the latest
timestamp, so the merged map silently loses wallet `"w1"` even though both
chunk writes succeeded: the cleaned map has wallets `["w1", "w2"]` but the
merged file contains only `"w2"`. -/
theorem chunk_roundtrip_counterexample :
    (saveHoldersSummaryToFile clock12 sampleBig2).map Prod.fst
      = ["holderSummary-T1-chunk1.json", "holderSummary-T2-chunk2.json"]
    ∧ (cleanHolders sampleBig2).map Prod.fst = ["w1", "w2"]
    ∧ getLatestHoldersSummaryFile
        ["holderSummary-T1-chunk1.json", "holderSummary-T2-chunk2.json"]
        (fun f => if f = "holderSummary-T1-chunk1.json"
          then [("w1", List.replicate 1050000 "a")] else [("w2", ["b"])])
      = some ("holderSummary-T2.json", [("holderSummary-T2.json", [("w2", ["b"])])])
    ∧ lookupS "w1" [("w2", ["b"])] = none := by
  refine ⟨?_, ?_, by decide, by decide⟩
  · rw [save_sampleBig2 clock12]
    decide
  · rw [clean_sampleBig2]
    rfl

/-- C1 witness: the amended round trip at the concrete splitting map
`sampleBig2` with a constant timestamp and a read function returning
exactly what was written. -/
theorem chunk_roundtrip_witness :
    ∃ merged,
      getLatestHoldersSummaryFile
          ((saveHoldersSummaryToFile (fun _ => "2025-01-01T00-00-00-000Z")
            sampleBig2).map Prod.fst)
          (fun f => if f = "holderSummary-2025-01-01T00-00-00-000Z-chunk1.json"
            then [("w1", List.replicate 1050000 "a")] else [("w2", ["b"])])
        = some ("holderSummary-" ++ "2025-01-01T00-00-00-000Z" ++ ".json",
                [("holderSummary-" ++ "2025-01-01T00-00-00-000Z" ++ ".json", merged)])
      ∧ merged.Perm (cleanHolders sampleBig2)
      ∧ ∀ w, lookupS w merged = lookupS w (cleanHolders sampleBig2) := by
  apply chunk_roundtrip sampleBig2 "2025-01-01T00-00-00-000Z" _ (by decide)
      shouldSplit_sampleBig2 (by decide)
  intro e he
  rw [save_sampleBig2 (fun _ => "2025-01-01T00-00-00-000Z")] at he
  rcases List.mem_cons.mp he with rfl | he2
  · rw [if_pos (by decide)]
  · rcases List.mem_singleton.mp he2 with rfl
    rw [if_neg (by decide)]

/-- C2 (amended): the writer produces the single file
`holderSummary-<ts>.json` with the cleaned map exactly when the size
estimate is at most 50 MB and the cleaned wallet count at most 100,000;
past either threshold it writes a chunk set instead: every written filename
carries the chunk marker, the chunk contents are contiguous slices of at
most `⌈W/5⌉` wallets that concatenate exactly to the cleaned map, and there
are between 1 and 5 chunk files (exactly 5 only for large enough wallet
counts — a single oversized wallet yields one chunk, not five). -/
theorem split_decision_spec (clock : Nat → String) (m : HolderMap)
    (hnd : (m.map Prod.fst).Nodup) :
    (estimatedSize (cleanHolders m) ≤ 52428800 ∧ (cleanHolders m).length ≤ 100000 →
      saveHoldersSummaryToFile clock m
        = [("holderSummary-" ++ clock 0 ++ ".json", cleanHolders m)])
    ∧ (52428800 < estimatedSize (cleanHolders m) ∨ 100000 < (cleanHolders m).length →
        ((saveHoldersSummaryToFile clock m).map Prod.snd).flatten = cleanHolders m
        ∧ 1 ≤ (saveHoldersSummaryToFile clock m).length
        ∧ (saveHoldersSummaryToFile clock m).length ≤ 5
        ∧ ∀ e ∈ saveHoldersSummaryToFile clock m,
            containsS "chunk" e.1 = true
            ∧ e.2.length ≤ ((cleanHolders m).length + 4) / 5) := by
  constructor
  · rintro ⟨h1, h2⟩
    apply save_single_branch
    rw [Bool.eq_false_iff]
    intro hc
    rcases shouldSplit_iff.mp hc with h | h <;> omega
  · intro hcond
    have hsplit : shouldSplit (cleanHolders m) = true := shouldSplit_iff.mpr hcond
    refine ⟨save_writes_flatten clock m hnd hsplit,
      List.length_pos.mpr (save_ne_nil clock m hsplit),
      save_length_le clock m hsplit, ?_⟩
    intro e he
    constructor
    · obtain ⟨k, hk⟩ := save_mem_shape clock m hsplit e he
      rw [hk]
      apply containsS_of_data (("holderSummary-" ++ clock k).data ++ ['-'])
        ((toString (k + 1)).data ++ ".json".data)
      simp [String.data_append, List.append_assoc]
    · have h2 := save_chunk_small clock m hsplit e he
      rwa [List.length_map] at h2

/-- C2 (counterexample): a map of a single wallet with 1,050,000 valid
identifiers pushes the estimate past 50 MB, so the writer splits — but the
"chunk set" is one single chunk file, not 5 roughly-equal slices:
`chunkSize = ⌈1/5⌉ = 1` makes the loop run once. -/
theorem split_single_chunk_counterexample :
    52428800 < estimatedSize (cleanHolders sampleBig1)
    ∧ saveHoldersSummaryToFile (fun _ => "T") sampleBig1
        = [("holderSummary-T-chunk1.json", [("w", List.replicate 1050000 "a")])]
    ∧ (saveHoldersSummaryToFile (fun _ => "T") sampleBig1).length = 1 := by
  refine ⟨estimate_sampleBig1, ?_, ?_⟩
  · rw [save_sampleBig1 (fun _ => "T")]
    rw [show ("holderSummary-" ++ (fun _ : Nat => "T") 0 ++ "-chunk" ++ toString (0 + 1)
        ++ ".json") = "holderSummary-T-chunk1.json" from by decide]
  · rw [save_sampleBig1 (fun _ => "T")]
    rfl

/-- C2 witness: the amended theorem's single-file branch at a small map. -/
theorem split_decision_spec_witness :
    estimatedSize (cleanHolders [("w", ["i"])]) ≤ 52428800
    ∧ (cleanHolders [("w", ["i"])]).length ≤ 100000
    ∧ saveHoldersSummaryToFile (fun _ => "T") [("w", ["i"])]
        = [("holderSummary-" ++ "T" ++ ".json", cleanHolders [("w", ["i"])])] :=
  ⟨by decide, by decide,
   (split_decision_spec (fun _ => "T") [("w", ["i"])] (by decide)).1 ⟨by decide, by decide⟩⟩

/-- C3 (code bug): the chunk writer calls `new Date()` inside the per-chunk
loop, so with a clock that advances between the two chunk writes the two
chunk files carry different timestamps (`T1`, `T2`) — no single timestamp
`ts` names both files, contradicting the claim that all chunks of one
snapshot share one timestamp (which the merge side relies on). -/
theorem chunk_timestamps_differ :
    (saveHoldersSummaryToFile clock12 sampleBig2).map Prod.fst
      = ["holderSummary-T1-chunk1.json", "holderSummary-T2-chunk2.json"]
    ∧ ∀ ts : String,
        (saveHoldersSummaryToFile clock12 sampleBig2).map Prod.fst
          ≠ ["holderSummary-" ++ ts ++ "-chunk1.json",
             "holderSummary-" ++ ts ++ "-chunk2.json"] := by
  have hmap : (saveHoldersSummaryToFile clock12 sampleBig2).map Prod.fst
      = ["holderSummary-T1-chunk1.json", "holderSummary-T2-chunk2.json"] := by
    rw [save_sampleBig2 clock12]
    decide
  refine ⟨hmap, ?_⟩
  intro ts heq
  rw [hmap] at heq
  injection heq with h1 htail
  injection htail with h2 _
  have hd1 := congrArg String.data h1
  have hd2 := congrArg String.data h2
  rw [String.data_append, String.data_append,
      show "holderSummary-T1-chunk1.json".data
        = ("holderSummary-".data ++ "T1".data) ++ "-chunk1.json".data from by decide]
    at hd1
  rw [String.data_append, String.data_append,
      show "holderSummary-T2-chunk2.json".data
        = ("holderSummary-".data ++ "T2".data) ++ "-chunk2.json".data from by decide]
    at hd2
  have hts1 : "T1".data = ts.data :=
    List.append_cancel_left (List.append_cancel_right hd1)
  have hts2 : "T2".data = ts.data :=
    List.append_cancel_left (List.append_cancel_right hd2)
  exact absurd (hts1.trans hts2.symm) (by decide)

/-- C3 witness: no shared timestamp `T1` names both chunk files. -/
theorem chunk_timestamps_differ_witness :
    (saveHoldersSummaryToFile clock12 sampleBig2).map Prod.fst
      ≠ ["holderSummary-" ++ "T1" ++ "-chunk1.json",
         "holderSummary-" ++ "T1" ++ "-chunk2.json"] :=
  chunk_timestamps_differ.2 "T1"

/-- C4 (amended): the single file that a chunk merge persists and returns
is named `<prefix>.json` where `<prefix>` is everything before the chunk
marker — that is `holderSummary-<ts>.json`: it KEEPS the `holderSummary-`
kind prefix (contrary to the claim's "no kind prefix"), ends in `.json`,
and carries no chunk marker. -/
theorem merged_filename_spec (ts : String) (files : List String)
    (readFile : String → HolderMap)
    (hno : NoEarlyOccB "-chunk".data ("holderSummary-" ++ ts).data = true)
    (hne : files ≠ [])
    (hshape : ∀ f ∈ files, ∃ suffix : List Char,
        f.data = ("holderSummary-" ++ ts).data ++ ("-chunk".data ++ suffix)
        ∧ ∃ front : List Char, f.data = front ++ ".json".data)
    (hnc : containsS "chunk" ("holderSummary-" ++ ts ++ ".json") = false) :
    ∃ merged,
      getLatestHoldersSummaryFile files readFile
        = some ("holderSummary-" ++ ts ++ ".json",
                [("holderSummary-" ++ ts ++ ".json", merged)])
      ∧ startsWithS "holderSummary-" ("holderSummary-" ++ ts ++ ".json") = true
      ∧ endsWithS ".json" ("holderSummary-" ++ ts ++ ".json") = true
      ∧ containsS "chunk" ("holderSummary-" ++ ts ++ ".json") = false := by
  refine ⟨_, getLatest_chunkset ts files readFile hno hne hshape, ?_, ?_, hnc⟩
  · apply startsWithS_of_data_prefix (ts.data ++ ".json".data)
    simp [String.data_append, List.append_assoc]
  · apply endsWithS_of_data_suffix ("holderSummary-" ++ ts).data
    simp [String.data_append]

/-- C4 (counterexample): merging the chunk set with timestamp `TS` persists
`holderSummary-TS.json` — not the claimed `TS.json` without kind prefix. -/
theorem merged_filename_counterexample :
    getLatestHoldersSummaryFile
        ["holderSummary-TS-chunk1.json", "holderSummary-TS-chunk2.json"]
        (fun f => if f = "holderSummary-TS-chunk1.json"
          then [("w1", ["a"])] else [("w2", ["b"])])
      = some ("holderSummary-TS.json",
          [("holderSummary-TS.json", [("w1", ["a"]), ("w2", ["b"])])])
    ∧ "holderSummary-TS.json" ≠ "TS.json"
    ∧ startsWithS "holderSummary-" "holderSummary-TS.json" = true := by
  refine ⟨by decide, by decide, by decide⟩

/-- C4 witness: the amended theorem at a concrete two-chunk directory. -/
theorem merged_filename_spec_witness :
    ∃ merged,
      getLatestHoldersSummaryFile
          ["holderSummary-TS4-chunk1.json", "holderSummary-TS4-chunk2.json"]
          (fun _ => [("w", ["i"])])
        = some ("holderSummary-" ++ "TS4" ++ ".json",
                [("holderSummary-" ++ "TS4" ++ ".json", merged)])
      ∧ startsWithS "holderSummary-" ("holderSummary-" ++ "TS4" ++ ".json") = true
      ∧ endsWithS ".json" ("holderSummary-" ++ "TS4" ++ ".json") = true
      ∧ containsS "chunk" ("holderSummary-" ++ "TS4" ++ ".json") = false := by
  apply merged_filename_spec "TS4"
      ["holderSummary-TS4-chunk1.json", "holderSummary-TS4-chunk2.json"]
      (fun _ => [("w", ["i"])]) (by decide) (by decide) ?_ (by decide)
  intro f hf
  rcases List.mem_cons.mp hf with rfl | hf2
  · exact ⟨"1.json".data, by decide, "holderSummary-TS4-chunk1".data, by decide⟩
  · rcases List.mem_singleton.mp hf2 with rfl
    exact ⟨"2.json".data, by decide, "holderSummary-TS4-chunk2".data, by decide⟩

/-- C10: the merged file `holderSummary-<ts>.json` written by a chunk merge
starts with the `holderSummary-` prefix, ends in `.json`, contains no chunk
marker, and sorts lexicographically after every chunk file of its
timestampsharing snapshot; hence an immediately subsequent call (the same
directory plus the merged file, no newer snapshot) selects the merged file
and returns it directly, performing no write and no chunk merge. -/
theorem merged_file_selected_next (ts : String) (files : List String)
    (readFile : String → HolderMap)
    (hno : NoEarlyOccB "-chunk".data ("holderSummary-" ++ ts).data = true)
    (hne : files ≠ [])
    (hshape : ∀ f ∈ files, ∃ suffix : List Char,
        f.data = ("holderSummary-" ++ ts).data ++ ("-chunk".data ++ suffix)
        ∧ ∃ front : List Char, f.data = front ++ ".json".data)
    (hnc : containsS "chunk" ("holderSummary-" ++ ts ++ ".json") = false) :
    ∃ merged,
      getLatestHoldersSummaryFile files readFile
        = some ("holderSummary-" ++ ts ++ ".json",
                [("holderSummary-" ++ ts ++ ".json", merged)])
      ∧ startsWithS "holderSummary-" ("holderSummary-" ++ ts ++ ".json") = true
      ∧ endsWithS ".json" ("holderSummary-" ++ ts ++ ".json") = true
      ∧ containsS "chunk" ("holderSummary-" ++ ts ++ ".json") = false
      ∧ (∀ f ∈ files, strLt f ("holderSummary-" ++ ts ++ ".json") = true)
      ∧ getLatestHoldersSummaryFile (files ++ ["holderSummary-" ++ ts ++ ".json"])
          readFile
        = some ("holderSummary-" ++ ts ++ ".json", []) := by
  have hlt : ∀ f ∈ files, strLt f ("holderSummary-" ++ ts ++ ".json") = true := by
    intro f hf
    obtain ⟨suffix, hdata, _⟩ := hshape f hf
    unfold strLt
    rw [hdata]
    rw [show ("holderSummary-" ++ ts ++ ".json").data
        = ("holderSummary-" ++ ts).data ++ ('.' :: "json".data) from by
      rw [String.data_append]]
    rw [show ("-chunk".data ++ suffix) = '-' :: ("chunk".data ++ suffix) from rfl]
    rw [charListLt_append]
    exact charListLt_cons_lt _ _ (by decide)
  have hMf : holderSummaryFileFilter ("holderSummary-" ++ ts ++ ".json") = true := by
    unfold holderSummaryFileFilter
    rw [Bool.and_eq_true]
    constructor
    · apply startsWithS_of_data_prefix (ts.data ++ ".json".data)
      simp [String.data_append, List.append_assoc]
    · apply endsWithS_of_data_suffix ("holderSummary-" ++ ts).data
      simp [String.data_append]
  refine ⟨_, getLatest_chunkset ts files readFile hno hne hshape, ?_, ?_, hnc, hlt, ?_⟩
  · apply startsWithS_of_data_prefix (ts.data ++ ".json".data)
    simp [String.data_append, List.append_assoc]
  · apply endsWithS_of_data_suffix ("holderSummary-" ++ ts).data
    simp [String.data_append]
  · apply getLatest_single _ readFile _ (List.mem_append.mpr (Or.inr (by simp)))
      hMf hnc
    intro f hf hfil
    rcases List.mem_append.mp hf with hf' | hf'
    · exact Or.inr (hlt f hf')
    · rw [List.mem_singleton] at hf'
      exact Or.inl hf'

/-- C10 witness: a concrete two-chunk directory, its merge, and the
subsequent call returning the merged file with no further writes. -/
theorem merged_file_selected_next_witness :
    ∃ merged,
      getLatestHoldersSummaryFile
          ["holderSummary-TSX-chunk1.json", "holderSummary-TSX-chunk2.json"]
          (fun _ => [("w", ["i"])])
        = some ("holderSummary-" ++ "TSX" ++ ".json",
                [("holderSummary-" ++ "TSX" ++ ".json", merged)])
      ∧ startsWithS "holderSummary-" ("holderSummary-" ++ "TSX" ++ ".json") = true
      ∧ endsWithS ".json" ("holderSummary-" ++ "TSX" ++ ".json") = true
      ∧ containsS "chunk" ("holderSummary-" ++ "TSX" ++ ".json") = false
      ∧ (∀ f ∈ ["holderSummary-TSX-chunk1.json", "holderSummary-TSX-chunk2.json"],
          strLt f ("holderSummary-" ++ "TSX" ++ ".json") = true)
      ∧ getLatestHoldersSummaryFile
          (["holderSummary-TSX-chunk1.json", "holderSummary-TSX-chunk2.json"]
            ++ ["holderSummary-" ++ "TSX" ++ ".json"])
          (fun _ => [("w", ["i"])])
        = some ("holderSummary-" ++ "TSX" ++ ".json", []) := by
  apply merged_file_selected_next "TSX"
      ["holderSummary-TSX-chunk1.json", "holderSummary-TSX-chunk2.json"]
      (fun _ => [("w", ["i"])]) (by decide) (by decide) ?_ (by decide)
  intro f hf
  rcases List.mem_cons.mp hf with rfl | hf2
  · exact ⟨"1.json".data, by decide, "holderSummary-TSX-chunk1".data, by decide⟩
  · rcases List.mem_singleton.mp hf2 with rfl
    exact ⟨"2.json".data, by decide, "holderSummary-TSX-chunk2".data, by decide⟩

/-- C6 (counterexample): aggregating the wallet `"w"` holding inscription
`"x"` from two different collections, with an empty bitmap dataset, leaves
the duplicated identifier `["x", "x"]` in the summary — `summarizeHolders`
does not deduplicate identifiers gathered by the collection phase. -/
theorem summarizeHolders_duplicate_from_collections :
    lookupS "w" (summarizeHolders [[⟨"w", ["x"]⟩], [⟨"w", ["x"]⟩]] []) = some ["x", "x"]
    ∧ ¬(["x", "x"] : List String).Nodup := by
  constructor
  · decide
  · decide

/-- C6 (amended): the deduplication invariant holds exactly for wallets the
bitmap phase touches — if some bitmap record for wallet `w` carries an
array-shaped identifier list, then `w`'s final identifier list in the
`summarizeHolders` output contains no duplicates (the bitmap merge rebuilds
it through a JS `Set`). -/
theorem summarizeHolders_bitmap_dedup (cols : List (List IHolder))
    (bitmaps : List IBitmap) (w : String)
    (hb : ∃ b ∈ bitmaps, b.wallet = w ∧ b.inscription_ids.isSome) :
    ∀ v, lookupS w (summarizeHolders cols bitmaps) = some v → v.Nodup :=
  foldl_processBitmap_dedup bitmaps _ hb

/-- C6 witness: the amended theorem applies to the concrete input of one
collection holder `("w", ["x"])` and one bitmap record `("w", ["x", "x"])`. -/
theorem summarizeHolders_bitmap_dedup_witness :
    (∃ b ∈ [IBitmap.mk "w" (some ["x", "x"])], b.wallet = "w" ∧ b.inscription_ids.isSome)
    ∧ ∀ v, lookupS "w" (summarizeHolders [[⟨"w", ["x"]⟩]] [IBitmap.mk "w" (some ["x", "x"])])
        = some v → v.Nodup :=
  ⟨⟨IBitmap.mk "w" (some ["x", "x"]), by decide, rfl, rfl⟩,
   summarizeHolders_bitmap_dedup [[⟨"w", ["x"]⟩]] [IBitmap.mk "w" (some ["x", "x"])] "w"
     ⟨IBitmap.mk "w" (some ["x", "x"]), by decide, rfl, rfl⟩⟩

/-- C5: the cleaning pass of `saveHoldersSummaryToFile` keeps exactly the
entries whose wallet key does not trim to the empty string, restricted to
their identifiers that are non-empty after trimming and shorter than 1000
characters, and drops entries left with no identifier; in particular no
cleaned key trims to empty and every surviving identifier is non-blank. -/
theorem cleanHolders_spec (m : HolderMap) :
    (∀ e ∈ cleanHolders m, jsTrim e.1 ≠ "" ∧ e.2 ≠ [] ∧
        ∀ id ∈ e.2, jsTrim id ≠ "" ∧ id.length < 1000)
    ∧ ∀ e : String × List String,
        e ∈ cleanHolders m ↔
          ∃ ins, (e.1, ins) ∈ m ∧ jsTrim e.1 ≠ "" ∧
            e.2 = ins.filter validInscription ∧ e.2 ≠ [] := by
  have hchar : ∀ e : String × List String,
      e ∈ cleanHolders m ↔
        ∃ ins, (e.1, ins) ∈ m ∧ jsTrim e.1 ≠ "" ∧
          e.2 = ins.filter validInscription ∧ e.2 ≠ [] := by
    intro e
    unfold cleanHolders
    rw [List.mem_filterMap]
    constructor
    · rintro ⟨a, ha, hca⟩
      unfold cleanEntry at hca
      by_cases h1 : jsTrim a.1 = ""
      · rw [if_pos h1] at hca; cases hca
      · rw [if_neg h1] at hca
        simp only at hca
        by_cases h2 : (a.2.filter validInscription).isEmpty
        · rw [if_pos h2] at hca; cases hca
        · rw [if_neg h2] at hca
          have he : e = (a.1, a.2.filter validInscription) := (Option.some_inj.mp hca).symm
          refine ⟨a.2, ?_, ?_, ?_, ?_⟩
          · rw [he]; exact (@Prod.mk.eta _ _ a) ▸ ha
          · rw [he]; exact h1
          · rw [he]
          · rw [he]
            simpa using h2
    · rintro ⟨ins, hmem, h1, h2, h3⟩
      refine ⟨(e.1, ins), hmem, ?_⟩
      unfold cleanEntry
      rw [if_neg h1]
      simp only
      rw [if_neg (by simpa using (h2 ▸ h3 : ins.filter validInscription ≠ []))]
      rw [← h2, Prod.mk.eta]
  refine ⟨?_, hchar⟩
  intro e he
  obtain ⟨ins, _, h1, h2, h3⟩ := (hchar e).mp he
  refine ⟨h1, h3, ?_⟩
  intro id hid
  rw [h2] at hid
  have hv := List.of_mem_filter hid
  unfold validInscription at hv
  rw [Bool.and_eq_true] at hv
  exact ⟨bne_iff_ne.mp hv.1, of_decide_eq_true hv.2⟩

/-- C5 witness: the theorem applied to the spec's example input
`{"": ["a"], " wallet1 ": ["b", "", "   ", "c"]}`. -/
theorem cleanHolders_spec_witness :
    cleanHolders [("", ["a"]), (" wallet1 ", ["b", "", "   ", "c"])]
      = [(" wallet1 ", ["b", "c"])]
    ∧ jsTrim " wallet1 " ≠ "" ∧ (["b", "c"] : List String) ≠ [] :=
  ⟨by decide,
   ((cleanHolders_spec [("", ["a"]), (" wallet1 ", ["b", "", "   ", "c"])]).1
     (" wallet1 ", ["b", "c"]) (by decide)).1,
   (((cleanHolders_spec [("", ["a"]), (" wallet1 ", ["b", "", "   ", "c"])]).1
     (" wallet1 ", ["b", "c"]) (by decide)).2).1⟩

/-- C7 (counterexample): the two `filterHolders` implementations disagree at
a wallet with exactly 10 identifiers — the legacy `src/index.ts` filter
(`> 10`) drops it, while the claimed "meets or exceeds 10" behaviour (and
the `src/services/dataProcessor.ts` filter, `>= 10`) keeps it. -/
theorem filterHolders_legacy_disagrees_at_ten :
    filterHoldersLegacy [("w", List.replicate 10 "i")] = []
    ∧ (List.replicate 10 "i").length = 10
    ∧ filterHolders [("w", List.replicate 10 "i")] = [("w", List.replicate 10 "i")] := by
  refine ⟨by decide, by decide, by decide⟩

/-- C7 (amended): `filterHolders` of the refactored service keeps exactly
the entries with at least 10 identifiers, the legacy entry-point
`filterHolders` keeps exactly those with strictly more than 10; both return
sub-lists of the input with unchanged identifier lists (pure projections). -/
theorem filterHolders_spec (m : HolderMap) :
    (∀ e : String × List String, e ∈ filterHolders m ↔ e ∈ m ∧ 10 ≤ e.2.length)
    ∧ (∀ e : String × List String, e ∈ filterHoldersLegacy m ↔ e ∈ m ∧ 10 < e.2.length)
    ∧ (filterHolders m).Sublist m ∧ (filterHoldersLegacy m).Sublist m := by
  refine ⟨?_, ?_, List.filter_sublist m, List.filter_sublist m⟩ <;> intro e <;>
    simp [filterHolders, filterHoldersLegacy, List.mem_filter]

/-- C7 witness: the service filter keeps a 10-identifier wallet. -/
theorem filterHolders_spec_witness :
    ("w2", List.replicate 10 "x") ∈ filterHolders [("w1", ["a"]), ("w2", List.replicate 10 "x")] :=
  ((filterHolders_spec [("w1", ["a"]), ("w2", List.replicate 10 "x")]).1
    ("w2", List.replicate 10 "x")).mpr ⟨by decide, by decide⟩

/-- C8 (amended): when every chunk filename has a parsable (or missing,
hence `'0'`-defaulted) index — the comparator is then consistent — the sort
is a permutation ordered ascending by chunk index; and a file whose key is 0
(in particular one with a missing index text, which the `|| '0'` fallback
maps to 0) sorts first whenever every other file has a positive index. -/
theorem chunk_sort_spec (l : List String)
    (hall : ∀ f ∈ l, (chunkKey f).isSome) :
    (sortK chunkKeep l).Perm l
    ∧ (sortK chunkKeep l).Pairwise (fun a b => chunkCmp a b ≤ 0)
    ∧ ∀ f0 ∈ l, chunkKey f0 = some 0 →
        (∀ f ∈ l, f ≠ f0 → 0 < (chunkKey f).getD 0) →
        (sortK chunkKeep l).head? = some f0 := by
  have hcmp : ∀ a ∈ l, ∀ b ∈ l, ∀ x y : Int,
      chunkKey a = some x → chunkKey b = some y → chunkCmp a b = x - y := by
    intro a _ b _ x y hx hy
    unfold chunkCmp
    rw [hx, hy]
  have htot : ∀ a ∈ l, ∀ b ∈ l, chunkKeep a b = true ∨ chunkKeep b a = true := by
    intro a ha b hb
    obtain ⟨x, hx⟩ := Option.isSome_iff_exists.mp (hall a ha)
    obtain ⟨y, hy⟩ := Option.isSome_iff_exists.mp (hall b hb)
    unfold chunkKeep
    rw [hcmp a ha b hb x y hx hy, hcmp b hb a ha y x hy hx]
    rcases le_total x y with h | h
    · left; simpa using by omega
    · right; simpa using by omega
  have htrans : ∀ a ∈ l, ∀ b ∈ l, ∀ c ∈ l,
      chunkKeep a b = true → chunkKeep b c = true → chunkKeep a c = true := by
    intro a ha b hb c hc hab hbc
    obtain ⟨x, hx⟩ := Option.isSome_iff_exists.mp (hall a ha)
    obtain ⟨y, hy⟩ := Option.isSome_iff_exists.mp (hall b hb)
    obtain ⟨z, hz⟩ := Option.isSome_iff_exists.mp (hall c hc)
    unfold chunkKeep at hab hbc ⊢
    rw [hcmp a ha b hb x y hx hy] at hab
    rw [hcmp b hb c hc y z hy hz] at hbc
    rw [hcmp a ha c hc x z hx hz]
    simp only [decide_eq_true_iff] at hab hbc ⊢
    omega
  have hpw := sortK_pairwise htot htrans
  refine ⟨sortK_perm chunkKeep l, ?_, ?_⟩
  · exact hpw.imp (fun h => by simpa [chunkKeep] using h)
  · intro f0 hf0 hkey hpos
    refine pairwise_head_eq hpw f0 (sortK_mem.mpr hf0) ?_
    intro x hx
    have hxl : x ∈ l := sortK_mem.mp hx
    by_cases hxf : x = f0
    · exact Or.inl hxf
    · right
      obtain ⟨kx, hkx⟩ := Option.isSome_iff_exists.mp (hall x hxl)
      have hkpos : 0 < kx := by
        have := hpos x hxl hxf
        rw [hkx] at this
        simpa using this
      constructor
      · unfold chunkKeep
        rw [hcmp f0 hf0 x hxl 0 kx hkey hkx]
        simpa using by omega
      · unfold chunkKeep
        rw [hcmp x hxl f0 hf0 kx 0 hkx hkey]
        simpa using by omega

/-- C8 witness: the amended theorem on a concrete listing where the middle
file `holderSummary-T-chunk` has a missing (empty) index: it gets key 0 and
sorts first, and the remaining chunks sort ascending. -/
theorem chunk_sort_spec_witness :
    (sortK chunkKeep
      ["holderSummary-T-chunk2.json", "holderSummary-T-chunk",
       "holderSummary-T-chunk1.json"]).head? = some "holderSummary-T-chunk"
    ∧ (sortK chunkKeep
        ["holderSummary-T-chunk2.json", "holderSummary-T-chunk",
         "holderSummary-T-chunk1.json"]).Perm
        ["holderSummary-T-chunk2.json", "holderSummary-T-chunk",
         "holderSummary-T-chunk1.json"] :=
  ⟨(chunk_sort_spec _ (by decide)).2.2 "holderSummary-T-chunk" (by decide)
      (by decide) (by decide),
   (chunk_sort_spec _ (by decide)).1⟩

/-- C9: the manual recursive encoder that `safeStringify` falls back to is
total — for every object graph (cycles included) it returns a string, never
throwing and never recursing more than fuel 12 deep, because every value at
depth greater than 10 is replaced by the `"[Max Depth Reached]"` marker. -/
theorem safeStringify_fallback_total (g : JGraph) (root : Nat) :
    (safeStringifyFallback g root).isSome
    ∧ ∀ fuel node depth, 1 ≤ fuel → 10 < depth →
        processObject g fuel node depth = some [maxDepthChunk] := by
  constructor
  · unfold safeStringifyFallback
    obtain ⟨s, hs⟩ :=
      Option.isSome_iff_exists.mp ((encoder_total 12 g).1 root 0 (by omega) (by omega))
    simp [hs]
  · intro fuel node depth h1 hd
    obtain ⟨f, rfl⟩ : ∃ f, fuel = f + 1 := ⟨fuel - 1, by omega⟩
    rw [processObject, if_pos hd]

/-- C9 witness: the encoder terminates on the cyclic graph whose only node
points to itself, and past the depth cap it emits the marker chunk. -/
theorem safeStringify_fallback_total_witness :
    (safeStringifyFallback cyclicGraph 0).isSome
    ∧ processObject cyclicGraph 5 0 11 = some [maxDepthChunk] :=
  ⟨(safeStringify_fallback_total cyclicGraph 0).1,
   (safeStringify_fallback_total cyclicGraph 0).2 5 0 11 (by decide) (by decide)⟩

/-- C8 (counterexample): a chunk file whose index text is non-empty but
unparsable (`chunkX`) gets the `NaN` key, which the comparator maps to 0
("equal to everything"); the stable sort therefore leaves it in place —
sandwiched between `chunk1` and `chunk2` — rather than treating it as index
0 and sorting it first as the claim states. -/
theorem chunk_sort_nan_not_first :
    chunkKey "holderSummary-T-chunkX.json" = none
    ∧ chunkCmp "holderSummary-T-chunk1.json" "holderSummary-T-chunkX.json" = 0
    ∧ sortK chunkKeep
        ["holderSummary-T-chunk1.json", "holderSummary-T-chunkX.json",
         "holderSummary-T-chunk2.json"]
      = ["holderSummary-T-chunk1.json", "holderSummary-T-chunkX.json",
         "holderSummary-T-chunk2.json"]
    ∧ (sortK chunkKeep
        ["holderSummary-T-chunk1.json", "holderSummary-T-chunkX.json",
         "holderSummary-T-chunk2.json"]).head?
      ≠ some "holderSummary-T-chunkX.json" := by
  refine ⟨by decide, by decide, by decide, by decide⟩

end HolderIndexer
